import Mathlib

/-!
# Verification of the cactus-client core against its specification

Shallow embedding of the core data structures and algorithms of the
cactus-client conformance-test harness:

* the static CSIP-Aus resource tree and the discovery plan
  (`src/cactus_client/action/discovery.py`),
* the step scheduler (`src/cactus_client/model/execution.py`),
* list pagination (`src/cactus_client/action/server.py`),
* the resource store (`src/cactus_client/model/context.py`),
* the polling-window delay (`src/cactus_client/action/discovery.py`),
* spec-modelled parts whose implementation files are absent from the
  source snapshot (the upsert-capable resource store and the execution
  engine), modelled from the specification's own words.

Machine datetimes are embedded as integer Unix timestamps (seconds),
timedeltas as integer second counts.
-/

set_option autoImplicit false
set_option maxHeartbeats 1000000

namespace CactusClient

/-- The CSIP-Aus resource kinds appearing in the static resource tree built by
`get_resource_tree` in `action/discovery.py`. -/
inductive CSIPAusResource where
  | DeviceCapability
  | Time
  | MirrorUsagePointList
  | MirrorUsagePoint
  | EndDeviceList
  | EndDevice
  | ConnectionPoint
  | Registration
  | FunctionSetAssignmentsList
  | FunctionSetAssignments
  | DERProgramList
  | DERProgram
  | DefaultDERControl
  | DERControlList
  | DERControl
  | DERList
  | DER
  | DERCapability
  | DERSettings
  | DERStatus
  deriving DecidableEq, Fintype, Repr

open CSIPAusResource

/-- The parent edges of the tree created by `get_resource_tree`
(`action/discovery.py`, lines 51-78): each `tree.create_node(identifier, parent)`
call becomes one equation.  `DeviceCapability` forms the root. -/
def treeParent : CSIPAusResource → Option CSIPAusResource
  | DeviceCapability => none
  | Time => some DeviceCapability
  | MirrorUsagePointList => some DeviceCapability
  | EndDeviceList => some DeviceCapability
  | MirrorUsagePoint => some MirrorUsagePointList
  | EndDevice => some EndDeviceList
  | ConnectionPoint => some EndDevice
  | Registration => some EndDevice
  | FunctionSetAssignmentsList => some EndDevice
  | FunctionSetAssignments => some FunctionSetAssignmentsList
  | DERProgramList => some FunctionSetAssignments
  | DERProgram => some DERProgramList
  | DefaultDERControl => some DERProgram
  | DERControlList => some DERProgram
  | DERControl => some DERControlList
  | DERList => some EndDevice
  | DER => some DERList
  | DERCapability => some DER
  | DERSettings => some DER
  | DERStatus => some DER

/-- Walk from a node up to the root, following `treeParent`, with enough fuel to
exhaust the 20-node tree.  This embeds `tree.rsearch(target)` from `treelib`,
which yields the node, its parent, ..., up to the root. -/
def rsearchAux : Nat → CSIPAusResource → List CSIPAusResource
  | 0, k => [k]
  | n + 1, k =>
    match treeParent k with
    | none => [k]
    | some p => k :: rsearchAux n p

/-- `tree.rsearch(target)`: the path from `target` up to the root. -/
def rsearch (k : CSIPAusResource) : List CSIPAusResource :=
  rsearchAux 32 k

/-- `reversed(list(tree.rsearch(target)))`: the path from the root down to
`target` (inclusive), as iterated by `discover_resource_plan`. -/
def pathFromRoot (k : CSIPAusResource) : List CSIPAusResource :=
  (rsearch k).reverse

/-- One step of the body of `discover_resource_plan`: append `s` to the visit
order unless it was already visited.  The Python keeps a separate
`visited_nodes` set; since that set always holds exactly the elements of
`visit_order`, the visited-check is embedded as list membership. -/
def visitStep (acc : List CSIPAusResource) (s : CSIPAusResource) : List CSIPAusResource :=
  if s ∈ acc then acc else acc ++ [s]

/-- Process one target's root-to-target path. -/
def processPath (acc : List CSIPAusResource) (p : List CSIPAusResource) : List CSIPAusResource :=
  p.foldl visitStep acc

/-- Process one target of `discover_resource_plan`'s outer loop. -/
def planStep (acc : List CSIPAusResource) (t : CSIPAusResource) : List CSIPAusResource :=
  processPath acc (pathFromRoot t)

/-- `discover_resource_plan(tree, target_resources)` over the fixed
`RESOURCE_TREE` (`action/discovery.py`, lines 81-94). -/
def discover_resource_plan (targets : List CSIPAusResource) : List CSIPAusResource :=
  targets.foldl planStep []

/-- Deduplicate a target list keeping the first occurrence of each element, in
order.  This is the claim-side "deduplicated ordered-first-seen input". -/
def dedupFirstSeenAux (seen : List CSIPAusResource) :
    List CSIPAusResource → List CSIPAusResource
  | [] => []
  | t :: ts =>
    if t ∈ seen then dedupFirstSeenAux seen ts
    else t :: dedupFirstSeenAux (seen ++ [t]) ts

/-- Ordered-first-seen deduplication of a target list. -/
def dedupFirstSeen (ts : List CSIPAusResource) : List CSIPAusResource :=
  dedupFirstSeenAux [] ts

/-- The depth of a node in the static tree, measured as the length of its
root path. -/
def treeDepth (k : CSIPAusResource) : Nat :=
  (pathFromRoot k).length

/-- A visit order is well-formed when it is closed under ancestors and lists
every ancestor of a member no later than the member itself. -/
def GoodPlan (l : List CSIPAusResource) : Prop :=
  ∀ k ∈ l, ∀ a ∈ pathFromRoot k,
    a ∈ l ∧ (a ≠ k → l.indexOf a < l.indexOf k)

/-- The relevant slice of a test-procedure `Step` (external
`cactus_test_definitions` dependency): an identifier and the
repeat-until-pass flag consulted by the execution engine. -/
structure Step where
  id : Nat
  repeat_until_pass : Bool
  deriving DecidableEq, Repr

/-- `StepExecution` from `model/execution.py` (lines 20-31).  Datetimes are
integer Unix timestamps. -/
structure StepExecution where
  source : Step
  client_alias : String
  client_resources_alias : String
  primacy : Int
  repeat_number : Nat
  not_before : Option Int
  attempts : Nat
  deriving DecidableEq, Repr

/-- The initial value of `earliest_not_before` in
`StepExecutionList.time_until_next`: `datetime(9999, 1, 1)` as a Unix
timestamp. -/
def SENTINEL_NOT_BEFORE : Int := 253370764800

/-- The initial value of `lowest_primacy` in `StepExecutionList.pop`:
`0xEFFFFFFF`. -/
def LOWEST_PRIMACY_SENTINEL : Int := 0xEFFFFFFF

/-- An item is eligible when its `not_before` is unset or has passed; the
Python loop `continue`s exactly on the ineligible items
(`se.not_before is not None and se.not_before > now`). -/
def eligible (now : Int) (se : StepExecution) : Bool :=
  match se.not_before with
  | none => true
  | some nb => decide (nb ≤ now)

/-- The running `lowest_primacy` value of `pop`: the sentinel before any
candidate is chosen, and the current candidate's primacy afterwards (the
Python updates `lowest` and `lowest_primacy` together). -/
def lowestPrimacyBound : Option StepExecution → Int
  | none => LOWEST_PRIMACY_SENTINEL
  | some se => se.primacy

/-- The scanning loop of `StepExecutionList.pop` (`model/execution.py`,
lines 67-82). -/
def popScan (now : Int) : List StepExecution → Option StepExecution → Option StepExecution
  | [], lowest => lowest
  | se :: rest, lowest =>
    if eligible now se = true ∧ se.primacy < lowestPrimacyBound lowest then
      popScan now rest (some se)
    else
      popScan now rest lowest

/-- `StepExecutionList.pop(now)`: returns the chosen item (if any) together
with the remaining queue; `self._items.remove(lowest)` removes the first
element equal to the chosen one. -/
def pop (now : Int) (items : List StepExecution) :
    Option StepExecution × List StepExecution :=
  match popScan now items none with
  | none => (none, items)
  | some lowest => (some lowest, items.erase lowest)

/-- The loop of `StepExecutionList.time_until_next` (`model/execution.py`,
lines 47-65): returns zero at the first unset `not_before`, otherwise tracks
the earliest `not_before` seen and applies the final clamp to zero. -/
def timeUntilNextLoop (now : Int) (earliest : Int) : List StepExecution → Option Int
  | [] => if earliest ≤ now then some 0 else some (earliest - now)
  | se :: rest =>
    match se.not_before with
    | none => some 0
    | some nb => timeUntilNextLoop now (if nb < earliest then nb else earliest) rest

/-- `StepExecutionList.time_until_next(now)`. -/
def time_until_next (now : Int) (items : List StepExecution) : Option Int :=
  if items.isEmpty then none
  else timeUntilNextLoop now SENTINEL_NOT_BEFORE items

/-- The running minimum tracked by `time_until_next` over the `not_before`
values of a queue (items with an unset `not_before` are passed over; the loop
has already returned in that case). -/
def foldMinNB : Int → List StepExecution → Int
  | e, [] => e
  | e, se :: rest =>
    foldMinNB (match se.not_before with | none => e | some nb => if nb < e then nb else e) rest

/-- A queued step whose primacy equals the `0xEFFFFFFF` sentinel and which is
immediately eligible (`not_before` unset). -/
def sentinelStep : StepExecution :=
  { source := ⟨1, false⟩
    client_alias := "alias"
    client_resources_alias := "alias"
    primacy := LOWEST_PRIMACY_SENTINEL
    repeat_number := 0
    not_before := none
    attempts := 0 }

/-- A queued step whose `not_before` lies beyond the `datetime(9999, 1, 1)`
initialisation constant of `time_until_next` (still within Python's datetime
range, whose maximum is `datetime(9999, 12, 31)`). -/
def lateStep : StepExecution :=
  { source := ⟨2, false⟩
    client_alias := "alias"
    client_resources_alias := "alias"
    primacy := 0
    repeat_number := 0
    not_before := some (SENTINEL_NOT_BEFORE + 100)
    attempts := 0 }

/-- A queued step with an ordinary primacy, immediately eligible. -/
def readyStep : StepExecution :=
  { source := ⟨3, false⟩
    client_alias := "alias"
    client_resources_alias := "alias"
    primacy := 0
    repeat_number := 0
    not_before := none
    attempts := 0 }

/-- `ActionResult` from `model/execution.py` (lines 9-17): whether the action
asks to be retriggered, and the new `not_before` for the re-queued step. -/
structure ActionResult where
  «repeat» : Bool
  not_before : Option Int
  deriving DecidableEq, Repr

/-- `ActionResult.done()`. -/
def ActionResult.done : ActionResult := ⟨false, none⟩

/-- Modelled from the spec: the check collaborator's result,
`CheckResult{passed: bool, description: string|none}` (§6). -/
structure CheckResult where
  passed : Bool
  description : Option String
  deriving DecidableEq, Repr

/-- The observable events of one engine run: each action/check collaborator
invocation, each re-queueing, and each finalization of a step. -/
inductive EngineEvent where
  | acted (se : StepExecution) (r : ActionResult)
  | checked (se : StepExecution) (r : CheckResult)
  | requeued (se : StepExecution)
  | finalized (se : StepExecution) (passed : Bool)
  deriving DecidableEq, Repr

/-- The re-queued form of a step whose action requested a repeat: repeat and
attempt counters incremented, `not_before` set to the action's returned delay
(`none` meaning immediately eligible). -/
def bumpRepeat (se : StepExecution) (nb : Option Int) : StepExecution :=
  { se with
    repeat_number := se.repeat_number + 1
    attempts := se.attempts + 1
    not_before := nb }

/-- The re-queued form of a step whose checks failed under repeat-until-pass:
attempt counter incremented, `not_before` pushed out by the fixed
inter-attempt delay. -/
def bumpAttempt (se : StepExecution) (nb : Option Int) : StepExecution :=
  { se with
    attempts := se.attempts + 1
    not_before := nb }

/-- Modelled from the spec: the execution engine's per-step loop (§4.5) —
`execution/execute.py` is absent from the source snapshot (only its tests and
callers are present).  While the scheduler has items: suspend until the next
item is eligible, pop it and invoke the action collaborator; if it signals a
retry request (`repeat = true`) the step is re-added with `not_before` set to
the returned delay (or immediate) and repeat/attempt counters incremented,
without invoking checks for this attempt; otherwise the check collaborator
runs, the step finalizes on pass, re-enqueues (attempt incremented, fixed
delay) on fail when marked repeat-until-pass with budget remaining, and
otherwise the failure is final and the run stops.  `fuel` bounds the number
of loop iterations. -/
def engineRun (act : StepExecution → ActionResult) (chk : StepExecution → CheckResult)
    (budgetRemains : StepExecution → Bool) (repeat_delay : Int) :
    Nat → Int → List StepExecution → List EngineEvent →
      List EngineEvent × List StepExecution
  | 0, _, items, evs => (evs, items)
  | fuel + 1, now, items, evs =>
    match time_until_next now items with
    | none => (evs, items)
    | some wait =>
      match pop (now + wait) items with
      | (none, items2) =>
        engineRun act chk budgetRemains repeat_delay fuel (now + wait) items2 evs
      | (some se, items2) =>
        if (act se).«repeat» then
          engineRun act chk budgetRemains repeat_delay fuel (now + wait)
            (items2 ++ [bumpRepeat se (act se).not_before])
            (evs ++ [EngineEvent.acted se (act se),
              EngineEvent.requeued (bumpRepeat se (act se).not_before)])
        else
          if (chk se).passed then
            engineRun act chk budgetRemains repeat_delay fuel (now + wait) items2
              (evs ++ [EngineEvent.acted se (act se), EngineEvent.checked se (chk se),
                EngineEvent.finalized se true])
          else
            if se.source.repeat_until_pass && budgetRemains se then
              engineRun act chk budgetRemains repeat_delay fuel (now + wait)
                (items2 ++ [bumpAttempt se (some (now + wait + repeat_delay))])
                (evs ++ [EngineEvent.acted se (act se), EngineEvent.checked se (chk se),
                  EngineEvent.requeued
                    (bumpAttempt se (some (now + wait + repeat_delay)))])
            else
              (evs ++ [EngineEvent.acted se (act se), EngineEvent.checked se (chk se),
                EngineEvent.finalized se false], items2)

/-- A collaborator pair for exercising the engine: the action requests one
repeat on a step's first attempt and completes afterwards. -/
def witnessAct : StepExecution → ActionResult :=
  fun se => if se.repeat_number = 0 then ⟨true, none⟩ else ⟨false, none⟩

/-- A check collaborator that always passes. -/
def witnessChk : StepExecution → CheckResult :=
  fun _ => ⟨true, none⟩

/-- A retry budget that is always exhausted. -/
def witnessBudget : StepExecution → Bool :=
  fun _ => false

/-- One page of a sep2 list response, as consumed by
`paginate_list_object_items` (`action/server.py`): the extracted child items
(via `item_callback`), the reported `all_` total and the reported `results`
per-page count. -/
structure Page (α : Type) where
  items : List α
  all_ : Option Int
  results : Option Int
  deriving DecidableEq, Repr

/-- The warnings `paginate_list_object_items` can log, tagged with the request
offset they were logged for. -/
inductive PagWarning where
  | missingResults (offset : Nat)
  | resultsMismatch (offset : Nat) (reported : Int) (actual : Nat)
  | missingAll (offset : Nat)
  | allVaried
  deriving DecidableEq, Repr

/-- The observable outcome of a pagination run: whether the max-pages safety
valve raised a `RequestException`, the accumulated items, the request offsets
(in request order), the requested page hrefs, and the logged warnings. -/
structure PagResult (α : Type) where
  raised : Bool
  items : List α
  offsets : List Nat
  hrefs : List String
  warnings : List PagWarning
  deriving DecidableEq, Repr

/-- `build_paging_params` (`action/server.py`, lines 69-83): builds
`?s=<start>&l=<limit>&a=<changed_after>`, omitting absent parts.  The
`changed_after` datetime is already its integer timestamp here. -/
def build_paging_params (start limit changed_after : Option Int) : String :=
  let parts : List String :=
    (match start with | none => [] | some s => ["s=" ++ toString s]) ++
      (match limit with | none => [] | some l => ["l=" ++ toString l]) ++
      (match changed_after with | none => [] | some a => ["a=" ++ toString a])
  "?" ++ String.intercalate "&" parts

/-- The `page_href` requested for one pagination step:
`list_href + build_paging_params(start=start, limit=page_size)`. -/
def pageHref (list_href : String) (page_size start : Nat) : String :=
  list_href ++ build_paging_params (some (start : Int)) (some (page_size : Int)) none

/-- The per-page `results` consistency warnings: warn if the attribute is
missing, or if it disagrees with the number of items actually parsed. -/
def resultsWarnings (offset : Nat) (results : Option Int) (actual : Nat) : List PagWarning :=
  match results with
  | none => [PagWarning.missingResults offset]
  | some r => if r ≠ (actual : Int) then [PagWarning.resultsMismatch offset r actual] else []

/-- The per-page `all_` consistency warning: warn if the attribute is missing. -/
def allWarnings (offset : Nat) (a : Option Int) : List PagWarning :=
  match a with
  | none => [PagWarning.missingAll offset]
  | some _ => []

/-- All warnings logged while processing one page. -/
def pageWarnings {α : Type} (offset : Nat) (page : Page α) : List PagWarning :=
  resultsWarnings offset page.results page.items.length ++ allWarnings offset page.all_

/-- The contribution of one page to `every_all_value`. -/
def allEntry (a : Option Int) : List Int :=
  match a with
  | none => []
  | some v => [v]

/-- The final check of `paginate_list_object_items`: warn once if the `all_`
attribute varied while paginating (`len(set(every_all_value)) > 1`). -/
def finalAllWarning (allVals : List Int) : List PagWarning :=
  if 1 < allVals.dedup.length then [PagWarning.allVaried] else []

/-- The `while True` loop of `paginate_list_object_items` (`action/server.py`,
lines 107-142).  The server is modelled as a function from the request offset
`s` to the parsed page (the href is determined by the offset).  `remaining`
is `max_pages_requested - pages_requested`, so the safety valve
(`pages_requested >= max_pages_requested` after incrementing) fires exactly
when `remaining ≤ 1` at a non-empty page. -/
def paginateLoop {α : Type} (server : Nat → Page α) (list_href : String) (page_size : Nat) :
    Nat → Nat → List α → List Nat → List String → List PagWarning → List Int → PagResult α
  | remaining, start, acc, offsets, hrefs, warns, allVals =>
    if (server start).items.length = 0 then
      { raised := false
        items := acc ++ (server start).items
        offsets := offsets ++ [start]
        hrefs := hrefs ++ [pageHref list_href page_size start]
        warnings := warns ++ pageWarnings start (server start)
          ++ finalAllWarning (allVals ++ allEntry (server start).all_) }
    else
      match remaining with
      | 0 =>
        { raised := true
          items := acc ++ (server start).items
          offsets := offsets ++ [start]
          hrefs := hrefs ++ [pageHref list_href page_size start]
          warnings := warns ++ pageWarnings start (server start) }
      | 1 =>
        { raised := true
          items := acc ++ (server start).items
          offsets := offsets ++ [start]
          hrefs := hrefs ++ [pageHref list_href page_size start]
          warnings := warns ++ pageWarnings start (server start) }
      | r + 2 =>
        paginateLoop server list_href page_size (r + 1) (start + page_size)
          (acc ++ (server start).items) (offsets ++ [start])
          (hrefs ++ [pageHref list_href page_size start])
          (warns ++ pageWarnings start (server start))
          (allVals ++ allEntry (server start).all_)

/-- The pagination loop started with empty accumulators: the "delta" produced
from a given remaining-page budget, start offset and previously collected
`all_` values. -/
def pagCore {α : Type} (server : Nat → Page α) (list_href : String) (page_size : Nat)
    (remaining start : Nat) (allVals : List Int) : PagResult α :=
  paginateLoop server list_href page_size remaining start [] [] [] [] allVals

/-- The default `max_pages_requested` of `paginate_list_object_items`. -/
def MAX_PAGES_REQUESTED_DEFAULT : Nat := 20

/-- `paginate_list_object_items(list_type, step, context, list_href, page_size,
item_callback, max_pages_requested)`, with the HTTP/XML mechanics abstracted
into `server`. -/
def paginate_list_object_items {α : Type} (server : Nat → Page α) (list_href : String)
    (page_size max_pages_requested : Nat) : PagResult α :=
  paginateLoop server list_href page_size max_pages_requested 0 [] [] [] [] []

/-- A well-behaved server holding the fixed item list `its`: the page at
offset `s` with page size `l` serves `its[s : s+l]`, reports the true total in
`all_` and the true per-page count in `results`. -/
def serverOfItems (its : List Int) (l : Nat) : Nat → Page Int :=
  fun s =>
    { items := (its.drop s).take l
      all_ := some (its.length : Int)
      results := some (((its.drop s).take l).length : Int) }

/-- A server whose single non-empty page (offset 0) reports a total (`all_`)
of 5 while actually holding one item, with a correct `results` count; every
other offset serves an empty page with the same reported total. -/
def badAllServer : Nat → Page Int :=
  fun s =>
    if s = 0 then { items := [7], all_ := some 5, results := some 1 }
    else { items := [], all_ := some 5, results := some 0 }

/-- A server every page of which is the same non-empty page: a misbehaving
server whose list never ends. -/
def constPageServer : Nat → Page Int :=
  fun _ => { items := [1], all_ := some 1, results := some 1 }

/-- A server whose single non-empty page (offset 0) reports `results = 3`
while actually holding one item; every other offset serves a consistent empty
page. -/
def mismatchServer : Nat → Page Int :=
  fun s =>
    if s = 0 then { items := [7], all_ := some 1, results := some 3 }
    else { items := [], all_ := some 1, results := some 0 }

/-- `StoredResource` from `model/context.py` (lines 23-28): a frozen record of
when a resource was stored, its kind, its parent (at discovery time) and the
opaque payload (type parameter `ρ`). -/
inductive StoredResource (ρ : Type) where
  | mk (created_at : Int) (type : CSIPAusResource) (parent : Option (StoredResource ρ))
      (resource : ρ)

/-- The creation timestamp of a stored resource. -/
def StoredResource.created_at {ρ : Type} : StoredResource ρ → Int
  | .mk c _ _ _ => c

/-- The resource kind of a stored resource. -/
def StoredResource.type {ρ : Type} : StoredResource ρ → CSIPAusResource
  | .mk _ t _ _ => t

/-- The parent of a stored resource. -/
def StoredResource.parent {ρ : Type} : StoredResource ρ → Option (StoredResource ρ)
  | .mk _ _ p _ => p

/-- The payload of a stored resource. -/
def StoredResource.resource {ρ : Type} : StoredResource ρ → ρ
  | .mk _ _ _ r => r

/-- `ResourceStore` from `model/context.py` (lines 31-86).  The Python dict
with a defaulting `get` is embedded as its lookup function: a kind that was
deleted from the dict and a kind mapped to the empty list are
indistinguishable through `get`, which is the store's only read access. -/
structure ResourceStore (ρ : Type) where
  store : CSIPAusResource → List (StoredResource ρ)

/-- A freshly constructed store (`field(default_factory=dict)`). -/
def ResourceStore.empty (ρ : Type) : ResourceStore ρ :=
  ⟨fun _ => []⟩

/-- `ResourceStore.clear`. -/
def ResourceStore.clear {ρ : Type} (_ : ResourceStore ρ) : ResourceStore ρ :=
  ⟨fun _ => []⟩

/-- `ResourceStore.clear_resource`. -/
def ResourceStore.clear_resource {ρ : Type} (rs : ResourceStore ρ)
    (type : CSIPAusResource) : ResourceStore ρ :=
  ⟨fun k => if k = type then [] else rs.store k⟩

/-- `ResourceStore.set_resource` (the `utc_now()` call becomes the explicit
`now` argument): replaces the whole bucket with the one new entry and returns
it. -/
def ResourceStore.set_resource {ρ : Type} (rs : ResourceStore ρ) (now : Int)
    (type : CSIPAusResource) (parent : Option (StoredResource ρ)) (resource : ρ) :
    StoredResource ρ × ResourceStore ρ :=
  (StoredResource.mk now type parent resource,
    ⟨fun k => if k = type then [StoredResource.mk now type parent resource]
      else rs.store k⟩)

/-- `ResourceStore.append_resource`: appends the new entry to the bucket
(creating the bucket if absent — through `get` both behave as append to the
current value). -/
def ResourceStore.append_resource {ρ : Type} (rs : ResourceStore ρ) (now : Int)
    (type : CSIPAusResource) (parent : Option (StoredResource ρ)) (resource : ρ) :
    StoredResource ρ × ResourceStore ρ :=
  (StoredResource.mk now type parent resource,
    ⟨fun k => if k = type then rs.store type ++ [StoredResource.mk now type parent resource]
      else rs.store k⟩)

/-- `ResourceStore.get`: all stored resources of a kind, the empty list when
none were stored. -/
def ResourceStore.get {ρ : Type} (rs : ResourceStore ρ) (type : CSIPAusResource) :
    List (StoredResource ρ) :=
  rs.store type

/-- One mutating `ResourceStore` operation, for reasoning about arbitrary
operation sequences. -/
inductive StoreOp (ρ : Type) where
  | set (now : Int) (type : CSIPAusResource) (parent : Option (StoredResource ρ))
      (resource : ρ)
  | append (now : Int) (type : CSIPAusResource) (parent : Option (StoredResource ρ))
      (resource : ρ)
  | clearResource (type : CSIPAusResource)
  | clear

/-- Apply one operation to a store. -/
def applyOp {ρ : Type} (rs : ResourceStore ρ) : StoreOp ρ → ResourceStore ρ
  | .set now t p r => (rs.set_resource now t p r).2
  | .append now t p r => (rs.append_resource now t p r).2
  | .clearResource t => rs.clear_resource t
  | .clear => rs.clear

/-- Apply a sequence of operations to a store, in order. -/
def applyOps {ρ : Type} (rs : ResourceStore ρ) (ops : List (StoreOp ρ)) : ResourceStore ρ :=
  ops.foldl applyOp rs

/-- Whether an operation stores an entry under the given kind. -/
def StoreOp.storesKind {ρ : Type} : StoreOp ρ → CSIPAusResource → Bool
  | .set _ t _ _, k => decide (t = k)
  | .append _ t _ _, k => decide (t = k)
  | .clearResource _, _ => false
  | .clear, _ => false

/-- The slice of `DeviceCapabilityResponse` (external `envoy_schema`
dependency) consulted by `calculate_wait_next_polling_window`: the optional
non-negative `pollRate`. -/
structure DeviceCapabilityResponse where
  pollRate : Option Nat
  deriving DecidableEq, Repr

/-- `calculate_wait_next_polling_window` (`action/discovery.py`, lines
97-110): Python's `x or 60` yields 60 for both `None` and `0`; `now` is the
truncated integer Unix timestamp `int(now.timestamp())`; `%` agrees with
Lean's `Int.emod` for a positive modulus. -/
def calculate_wait_next_polling_window (now : Int)
    (discovered_resources : ResourceStore DeviceCapabilityResponse) : Int :=
  let dcaps := discovered_resources.get CSIPAusResource.DeviceCapability
  let poll_rate_seconds : Int :=
    match dcaps with
    | [] => 60
    | d :: _ =>
      match d.resource.pollRate with
      | none => 60
      | some 0 => 60
      | some (n + 1) => ((n + 1 : Nat) : Int)
  poll_rate_seconds - now % poll_rate_seconds

/-- The polling-window wait in the specification's words: `pollRate -
(nowEpochSeconds mod pollRate)`, with `pollRate` the first stored
DeviceCapability's `pollRate` when it is present, non-null and non-zero, and
60 seconds otherwise. -/
def spec_polling_wait (now : Int)
    (discovered_resources : ResourceStore DeviceCapabilityResponse) : Int :=
  let pollRate : Int :=
    match (discovered_resources.get CSIPAusResource.DeviceCapability).head? with
    | none => 60
    | some d =>
      match d.resource.pollRate with
      | none => 60
      | some p => if p = 0 then 60 else (p : Int)
  pollRate - now % pollRate

namespace RStore

/-- Modelled from the spec: the identity key of a stored resource —
`cactus_client/model/resource.py` is absent from the source snapshot (only
its tests and callers are present), so the upsert-capable resource store is
modelled from §3 and §4.2 of the specification.  The key is the resource's
own href or, if the href is absent/empty, a locally-unique fallback so two
parentless hrefless resources remain distinct instances. -/
inductive RKey where
  | href (h : String)
  | fallback (n : Nat)
  deriving DecidableEq, Repr

/-- Modelled from the spec: a `StoredResourceId` is determined by the
identity of the owning parent (or a root marker) and the resource's own key;
two ids are equal iff built from equal parent chains and equal hrefs, so an
id is embedded as the chain of keys from the root down to the resource. -/
abbrev StoredResourceId := List RKey

/-- Build a `StoredResourceId` from a parent id (or the root marker `none`)
and the resource's own key. -/
def mkId (parent : Option StoredResourceId) (key : RKey) : StoredResourceId :=
  (match parent with | none => [] | some p => p) ++ [key]

/-- Modelled from the spec: the opaque protocol payload, exposing only the
optional `href` the store consults, plus distinguishing content. -/
structure Payload where
  href : Option String
  data : Int
  deriving DecidableEq, Repr

/-- Modelled from the spec: one stored resource instance of the
upsert-capable store. -/
structure StoredResource where
  id : StoredResourceId
  resourceType : CSIPAusResource
  parent : Option StoredResourceId
  payload : Payload
  deriving DecidableEq, Repr

/-- Modelled from the spec: the upsert-capable resource store — per kind an
ordered bucket of stored resources, plus the counter backing the
locally-unique fallback keys. -/
structure ResourceStore where
  buckets : CSIPAusResource → List StoredResource
  nextFallback : Nat

/-- A fresh store. -/
def ResourceStore.empty : ResourceStore := ⟨fun _ => [], 0⟩

/-- Modelled from the spec: compute the candidate identity from the parent
and the payload's href, consuming a fallback key when the href is absent. -/
def computeId (store : ResourceStore) (parent : Option StoredResourceId)
    (payload : Payload) : StoredResourceId × ResourceStore :=
  match payload.href with
  | some h => (mkId parent (RKey.href h), store)
  | none =>
    (mkId parent (RKey.fallback store.nextFallback),
      { store with nextFallback := store.nextFallback + 1 })

/-- Replace the first entry of the bucket whose id equals `cid` with `sr`,
keeping its position; `none` when no entry matches. -/
def upsertBucket (cid : StoredResourceId) (sr : StoredResource) :
    List StoredResource → Option (List StoredResource)
  | [] => none
  | e :: rest =>
    if e.id = cid then some (sr :: rest)
    else
      match upsertBucket cid sr rest with
      | some rest2 => some (e :: rest2)
      | none => none

/-- Modelled from the spec: `upsertResource(kind, parent, payload)` — compute
the candidate identity from `(parent, payload.href)`; if an existing entry in
the bucket for `kind` has the same identity it is replaced in place (position
preserved), otherwise the new entry is appended. -/
def upsert_resource (store : ResourceStore) (kind : CSIPAusResource)
    (parent : Option StoredResourceId) (payload : Payload) :
    StoredResource × ResourceStore :=
  let cidStore := computeId store parent payload
  let sr : StoredResource := ⟨cidStore.1, kind, parent, payload⟩
  match upsertBucket cidStore.1 sr (cidStore.2.buckets kind) with
  | some b2 =>
    (sr, { cidStore.2 with
      buckets := fun k => if k = kind then b2 else cidStore.2.buckets k })
  | none =>
    (sr, { cidStore.2 with
      buckets := fun k =>
        if k = kind then cidStore.2.buckets kind ++ [sr] else cidStore.2.buckets k })

/-- The stored entry created for a kind, parent and an href-carrying
payload. -/
def entry (kind : CSIPAusResource) (parent : Option StoredResourceId)
    (payload : Payload) (h : String) : StoredResource :=
  ⟨mkId parent (RKey.href h), kind, parent, payload⟩

end RStore

section DiscoveryPlanLemmas

lemma pathFromRoot_parent (k : CSIPAusResource) :
    pathFromRoot k =
      (match treeParent k with | none => [] | some p => pathFromRoot p) ++ [k] := by
  revert k; decide

lemma pathFromRoot_of_root {k : CSIPAusResource} (h : treeParent k = none) :
    pathFromRoot k = [k] := by
  have := pathFromRoot_parent k
  rw [h] at this
  simpa using this

lemma pathFromRoot_of_parent {k p : CSIPAusResource} (h : treeParent k = some p) :
    pathFromRoot k = pathFromRoot p ++ [k] := by
  have := pathFromRoot_parent k
  rw [h] at this
  exact this

lemma treeDepth_pos (k : CSIPAusResource) : 1 ≤ treeDepth k := by
  revert k; decide

lemma treeDepth_parent {k p : CSIPAusResource} (h : treeParent k = some p) :
    treeDepth p < treeDepth k := by
  have hall : ∀ k p : CSIPAusResource,
      treeParent k = some p → treeDepth p < treeDepth k := by decide
  exact hall k p h

lemma processPath_nil (acc : List CSIPAusResource) : processPath acc [] = acc := rfl

lemma processPath_cons (acc : List CSIPAusResource) (s : CSIPAusResource)
    (p : List CSIPAusResource) :
    processPath acc (s :: p) = processPath (visitStep acc s) p := rfl

lemma processPath_append (acc : List CSIPAusResource) (p q : List CSIPAusResource) :
    processPath acc (p ++ q) = processPath (processPath acc p) q := by
  simp [processPath, List.foldl_append]

lemma visitStep_prefixOf (acc : List CSIPAusResource) (s : CSIPAusResource) :
    acc <+: visitStep acc s := by
  unfold visitStep
  split
  · exact List.prefix_rfl
  · exact ⟨[s], rfl⟩

lemma processPath_prefixOf (p : List CSIPAusResource) (acc : List CSIPAusResource) :
    acc <+: processPath acc p := by
  induction p generalizing acc with
  | nil => exact List.prefix_rfl
  | cons s p ih =>
    rw [processPath_cons]
    exact (visitStep_prefixOf acc s).trans (ih (visitStep acc s))

lemma mem_processPath_of_mem {x : CSIPAusResource} {acc : List CSIPAusResource}
    (p : List CSIPAusResource) (h : x ∈ acc) : x ∈ processPath acc p :=
  (processPath_prefixOf p acc).subset h

lemma mem_visitStep_self (acc : List CSIPAusResource) (s : CSIPAusResource) :
    s ∈ visitStep acc s := by
  unfold visitStep
  split
  · assumption
  · simp

lemma mem_processPath_of_mem_path {s : CSIPAusResource} {p : List CSIPAusResource}
    (acc : List CSIPAusResource) (h : s ∈ p) : s ∈ processPath acc p := by
  induction p generalizing acc with
  | nil => cases h
  | cons t p ih =>
    rw [processPath_cons]
    rcases List.mem_cons.1 h with rfl | hmem
    · exact mem_processPath_of_mem p (mem_visitStep_self acc s)
    · exact ih (visitStep acc t) hmem

lemma processPath_eq_of_subset {p : List CSIPAusResource} {acc : List CSIPAusResource}
    (h : ∀ s ∈ p, s ∈ acc) : processPath acc p = acc := by
  induction p generalizing acc with
  | nil => rfl
  | cons t p ih =>
    rw [processPath_cons]
    have ht : visitStep acc t = acc := by
      unfold visitStep
      rw [if_pos (h t (List.mem_cons_self t p))]
    rw [ht]
    exact ih fun s hs => h s (List.mem_cons_of_mem t hs)

lemma visitStep_nodup {acc : List CSIPAusResource} (s : CSIPAusResource)
    (h : acc.Nodup) : (visitStep acc s).Nodup := by
  unfold visitStep
  split
  · exact h
  · simp [List.nodup_append, h, *]

lemma processPath_nodup {acc : List CSIPAusResource} (p : List CSIPAusResource)
    (h : acc.Nodup) : (processPath acc p).Nodup := by
  induction p generalizing acc with
  | nil => exact h
  | cons s p ih =>
    rw [processPath_cons]
    exact ih (visitStep_nodup s h)

lemma visitStep_good {acc : List CSIPAusResource} {t : CSIPAusResource}
    (hg : GoodPlan acc) (hanc : ∀ a ∈ pathFromRoot t, a ≠ t → a ∈ acc) :
    GoodPlan (visitStep acc t) := by
  unfold visitStep
  split
  · exact hg
  · rename_i htacc
    intro k hk a ha
    rcases List.mem_append.1 hk with hk | hk
    · -- an element already present keeps its ancestors and their positions
      obtain ⟨hamem, hidx⟩ := hg k hk a ha
      refine ⟨List.mem_append_left _ hamem, fun hne => ?_⟩
      rw [List.indexOf_append_of_mem hamem, List.indexOf_append_of_mem hk]
      exact hidx hne
    · have hk : k = t := by simpa using hk
      subst hk
      by_cases hat : a = k
      · subst hat
        exact ⟨List.mem_append_right _ (by simp), fun hne => absurd rfl hne⟩
      · have hamem : a ∈ acc := hanc a ha hat
        refine ⟨List.mem_append_left _ hamem, fun _ => ?_⟩
        rw [List.indexOf_append_of_mem hamem, List.indexOf_append_of_not_mem htacc]
        have hlt : acc.indexOf a < acc.length := List.indexOf_lt_length.2 hamem
        simp only [List.indexOf_cons_self]
        omega

lemma planStep_of_root {t : CSIPAusResource} (acc : List CSIPAusResource)
    (h : treeParent t = none) : planStep acc t = visitStep acc t := by
  unfold planStep
  rw [pathFromRoot_of_root h, processPath_cons, processPath_nil]

lemma planStep_of_parent {t p : CSIPAusResource} (acc : List CSIPAusResource)
    (h : treeParent t = some p) :
    planStep acc t = visitStep (planStep acc p) t := by
  unfold planStep
  rw [pathFromRoot_of_parent h, processPath_append, processPath_cons, processPath_nil]

lemma mem_planStep_path {a t : CSIPAusResource} (acc : List CSIPAusResource)
    (h : a ∈ pathFromRoot t) : a ∈ planStep acc t :=
  mem_processPath_of_mem_path acc h

lemma planStep_good_aux :
    ∀ n : Nat, ∀ t : CSIPAusResource, treeDepth t ≤ n →
      ∀ acc : List CSIPAusResource, GoodPlan acc → GoodPlan (planStep acc t) := by
  intro n
  induction n with
  | zero =>
    intro t ht
    exact absurd (lt_of_lt_of_le (treeDepth_pos t) ht) (by omega)
  | succ n ih =>
    intro t ht acc hg
    cases hp : treeParent t with
    | none =>
      rw [planStep_of_root acc hp]
      refine visitStep_good hg fun a ha hne => ?_
      rw [pathFromRoot_of_root hp] at ha
      exact absurd (by simpa using ha) hne
    | some p =>
      have hdp : treeDepth p ≤ n := by
        have := treeDepth_parent hp
        omega
      rw [planStep_of_parent acc hp]
      refine visitStep_good (ih p hdp acc hg) fun a ha hne => ?_
      rw [pathFromRoot_of_parent hp] at ha
      rcases List.mem_append.1 ha with ha | ha
      · exact mem_planStep_path acc ha
      · exact absurd (by simpa using ha) hne

lemma planStep_good {acc : List CSIPAusResource} (t : CSIPAusResource)
    (hg : GoodPlan acc) : GoodPlan (planStep acc t) :=
  planStep_good_aux (treeDepth t) t le_rfl acc hg

lemma planStep_nodup {acc : List CSIPAusResource} (t : CSIPAusResource)
    (h : acc.Nodup) : (planStep acc t).Nodup :=
  processPath_nodup (pathFromRoot t) h

lemma foldl_planStep_good :
    ∀ (ts : List CSIPAusResource) (acc : List CSIPAusResource),
      GoodPlan acc → GoodPlan (ts.foldl planStep acc) := by
  intro ts
  induction ts with
  | nil => intro acc h; exact h
  | cons t ts ih =>
    intro acc h
    exact ih (planStep acc t) (planStep_good t h)

lemma foldl_planStep_nodup :
    ∀ (ts : List CSIPAusResource) (acc : List CSIPAusResource),
      acc.Nodup → (ts.foldl planStep acc).Nodup := by
  intro ts
  induction ts with
  | nil => intro acc h; exact h
  | cons t ts ih =>
    intro acc h
    exact ih (planStep acc t) (planStep_nodup t h)

lemma foldl_planStep_dedup :
    ∀ (ts seen : List CSIPAusResource) (acc : List CSIPAusResource),
      (∀ t ∈ seen, ∀ a ∈ pathFromRoot t, a ∈ acc) →
      ts.foldl planStep acc = (dedupFirstSeenAux seen ts).foldl planStep acc := by
  intro ts
  induction ts with
  | nil => intro seen acc _; rfl
  | cons t ts ih =>
    intro seen acc hseen
    by_cases hmem : t ∈ seen
    · have habsorb : planStep acc t = acc :=
        processPath_eq_of_subset fun s hs => hseen t hmem s hs
      rw [dedupFirstSeenAux, if_pos hmem, List.foldl_cons, habsorb]
      exact ih seen acc hseen
    · rw [dedupFirstSeenAux, if_neg hmem, List.foldl_cons, List.foldl_cons]
      refine ih (seen ++ [t]) (planStep acc t) ?_
      intro u hu a ha
      rcases List.mem_append.1 hu with hu | hu
      · exact mem_processPath_of_mem _ (hseen u hu a ha)
      · have hu : u = t := by simpa using hu
        subst hu
        exact mem_planStep_path acc ha

end DiscoveryPlanLemmas

/-- **C1.** For every list of target resource kinds, `discover_resource_plan`
over the fixed resource tree returns a duplicate-free sequence in which every
returned kind's ancestors (up to the root `DeviceCapability`) appear strictly
earlier; re-invoking with any target list yields the same result as invoking
with its ordered-first-seen deduplication; `discover_resource_plan
[DERSettings]` equals `[DeviceCapability, EndDeviceList, EndDevice, DERList,
DER, DERSettings]`; and the empty target list yields the empty plan. -/
theorem discover_resource_plan_spec (ts : List CSIPAusResource) :
    (discover_resource_plan ts).Nodup
    ∧ (∀ k, k ∈ discover_resource_plan ts → ∀ a, a ∈ pathFromRoot k →
        a ∈ discover_resource_plan ts
        ∧ (a ≠ k →
            (discover_resource_plan ts).indexOf a <
              (discover_resource_plan ts).indexOf k))
    ∧ discover_resource_plan ts = discover_resource_plan (dedupFirstSeen ts)
    ∧ discover_resource_plan [DERSettings] =
        [DeviceCapability, EndDeviceList, EndDevice, DERList, DER, DERSettings]
    ∧ discover_resource_plan [] = [] := by
  refine ⟨foldl_planStep_nodup ts [] List.nodup_nil, ?_, ?_, by decide, rfl⟩
  · intro k hk a ha
    have hg : GoodPlan (discover_resource_plan ts) :=
      foldl_planStep_good ts [] (by intro k hk; cases hk)
    exact hg k hk a ha
  · exact foldl_planStep_dedup ts [] [] (by intro t ht; cases ht)

/-- Witness for C1 at the concrete input `[DERSettings]`: the plan contains
`DeviceCapability` strictly before `DER`. -/
theorem discover_resource_plan_spec_witness :
    DeviceCapability ∈ discover_resource_plan [DERSettings]
    ∧ (discover_resource_plan [DERSettings]).indexOf DeviceCapability <
        (discover_resource_plan [DERSettings]).indexOf DER := by
  have h := (discover_resource_plan_spec [DERSettings]).2.1 DER (by decide)
      DeviceCapability (by decide)
  exact ⟨h.1, h.2 (by decide)⟩

section SchedulerLemmas

lemma isEmpty_false_of_ne_nil {α : Type} {l : List α} (h : l ≠ []) :
    l.isEmpty = false := by
  cases l with
  | nil => exact absurd rfl h
  | cons a l => rfl

lemma eligible_false_iff {now : Int} {se : StepExecution} :
    eligible now se = false ↔ ∃ nb, se.not_before = some nb ∧ now < nb := by
  unfold eligible
  cases h : se.not_before with
  | none => simp
  | some nb => simp [h, Int.not_le]

lemma popScan_some_ne_none (now : Int) :
    ∀ (l : List StepExecution) (b : StepExecution),
      popScan now l (some b) ≠ none := by
  intro l
  induction l with
  | nil => intro b h; exact Option.noConfusion h
  | cons se rest ih =>
    intro b
    rw [popScan]
    split
    · exact ih se
    · exact ih b

lemma popScan_none_iff (now : Int) :
    ∀ l : List StepExecution,
      popScan now l none = none ↔
        ∀ se ∈ l, eligible now se = true → LOWEST_PRIMACY_SENTINEL ≤ se.primacy := by
  intro l
  induction l with
  | nil => simp [popScan]
  | cons se rest ih =>
    rw [popScan]
    split
    · rename_i hcond
      constructor
      · intro h; exact absurd h (popScan_some_ne_none now rest se)
      · intro h
        have := h se (List.mem_cons_self se rest) hcond.1
        have hb : lowestPrimacyBound none = LOWEST_PRIMACY_SENTINEL := rfl
        rw [hb] at hcond
        omega
    · rename_i hcond
      rw [ih]
      constructor
      · intro h
        intro u hu helig
        rcases List.mem_cons.1 hu with rfl | hu
        · by_contra hlt
          exact hcond ⟨helig, by simp only [lowestPrimacyBound]; omega⟩
        · exact h u hu helig
      · intro h u hu helig
        exact h u (List.mem_cons_of_mem se hu) helig

lemma popScan_bound_mono (now : Int) :
    ∀ (l : List StepExecution) (b : Option StepExecution),
      lowestPrimacyBound (popScan now l b) ≤ lowestPrimacyBound b := by
  intro l
  induction l with
  | nil => intro b; exact le_rfl
  | cons se rest ih =>
    intro b
    rw [popScan]
    split
    · rename_i hcond
      calc lowestPrimacyBound (popScan now rest (some se))
          ≤ lowestPrimacyBound (some se) := ih (some se)
        _ ≤ lowestPrimacyBound b := le_of_lt hcond.2
    · exact ih b

lemma popScan_bound_min (now : Int) :
    ∀ (l : List StepExecution) (b : Option StepExecution),
      ∀ se ∈ l, eligible now se = true →
        lowestPrimacyBound (popScan now l b) ≤ se.primacy := by
  intro l
  induction l with
  | nil => intro b se h; cases h
  | cons u rest ih =>
    intro b se hmem helig
    rw [popScan]
    rcases List.mem_cons.1 hmem with rfl | hmem
    · split
      · rename_i hcond
        calc lowestPrimacyBound (popScan now rest (some se))
            ≤ lowestPrimacyBound (some se) := popScan_bound_mono now rest (some se)
          _ = se.primacy := rfl
      · rename_i hcond
        have : ¬ se.primacy < lowestPrimacyBound b := fun hlt => hcond ⟨helig, hlt⟩
        calc lowestPrimacyBound (popScan now rest b)
            ≤ lowestPrimacyBound b := popScan_bound_mono now rest b
          _ ≤ se.primacy := by omega
    · split
      · exact ih (some u) se hmem helig
      · exact ih b se hmem helig

lemma popScan_result_cases (now : Int) :
    ∀ (l : List StepExecution) (b : Option StepExecution) (r : StepExecution),
      popScan now l b = some r →
        b = some r
        ∨ (r ∈ l ∧ eligible now r = true ∧ r.primacy < lowestPrimacyBound b) := by
  intro l
  induction l with
  | nil =>
    intro b r h
    exact Or.inl h
  | cons se rest ih =>
    intro b r h
    rw [popScan] at h
    split at h
    · rename_i hcond
      rcases ih (some se) r h with hb | ⟨hmem, helig, hlt⟩
      · have : se = r := Option.some.inj hb
        subst this
        exact Or.inr ⟨List.mem_cons_self se rest, hcond.1, hcond.2⟩
      · refine Or.inr ⟨List.mem_cons_of_mem se hmem, helig, ?_⟩
        have : lowestPrimacyBound (some se) = se.primacy := rfl
        rw [this] at hlt
        exact lt_trans hlt hcond.2
    · rcases ih b r h with hb | ⟨hmem, helig, hlt⟩
      · exact Or.inl hb
      · exact Or.inr ⟨List.mem_cons_of_mem se hmem, helig, hlt⟩

lemma popScan_first_min (now : Int) :
    ∀ (l : List StepExecution) (b : Option StepExecution) (r : StepExecution),
      popScan now l b = some r →
        (b = some r ∧ ∀ x ∈ l, eligible now x = true → r.primacy ≤ x.primacy)
        ∨ (∃ l1 l2, l = l1 ++ r :: l2
            ∧ eligible now r = true
            ∧ r.primacy < lowestPrimacyBound b
            ∧ (∀ x ∈ l1, eligible now x = true → r.primacy < x.primacy)
            ∧ (∀ x ∈ l2, eligible now x = true → r.primacy ≤ x.primacy)) := by
  intro l
  induction l with
  | nil =>
    intro b r h
    refine Or.inl ⟨h, ?_⟩
    intro x hx
    cases hx
  | cons se rest ih =>
    intro b r h
    rw [popScan] at h
    split at h
    · rename_i hcond
      rcases ih (some se) r h with ⟨hb, hrest⟩ |
        ⟨l1, l2, hsplit, helig, hlt, hl1, hl2⟩
      · have hse : se = r := Option.some.inj hb
        subst hse
        refine Or.inr ⟨[], rest, rfl, hcond.1, hcond.2, ?_, hrest⟩
        intro x hx
        cases hx
      · have hse : lowestPrimacyBound (some se) = se.primacy := rfl
        rw [hse] at hlt
        refine Or.inr ⟨se :: l1, l2, by rw [hsplit, List.cons_append], helig,
          lt_trans hlt hcond.2, ?_, hl2⟩
        intro x hx hxe
        rcases List.mem_cons.1 hx with rfl | hx
        · exact hlt
        · exact hl1 x hx hxe
    · rename_i hcond
      rcases ih b r h with ⟨hb, hrest⟩ |
        ⟨l1, l2, hsplit, helig, hlt, hl1, hl2⟩
      · subst hb
        refine Or.inl ⟨rfl, ?_⟩
        intro x hx hxe
        rcases List.mem_cons.1 hx with rfl | hx
        · have hnlt : ¬ x.primacy < lowestPrimacyBound (some r) :=
            fun hl => hcond ⟨hxe, hl⟩
          have hb2 : lowestPrimacyBound (some r) = r.primacy := rfl
          rw [hb2] at hnlt
          omega
        · exact hrest x hx hxe
      · refine Or.inr ⟨se :: l1, l2, by rw [hsplit, List.cons_append], helig, hlt,
          ?_, hl2⟩
        intro x hx hxe
        rcases List.mem_cons.1 hx with rfl | hx
        · have hnlt : ¬ x.primacy < lowestPrimacyBound b :=
            fun hl => hcond ⟨hxe, hl⟩
          omega
        · exact hl1 x hx hxe

lemma timeUntilNextLoop_ne_none (now : Int) :
    ∀ (l : List StepExecution) (e : Int), timeUntilNextLoop now e l ≠ none := by
  intro l
  induction l with
  | nil =>
    intro e
    rw [timeUntilNextLoop]
    split <;> exact fun h => Option.noConfusion h
  | cons se rest ih =>
    intro e
    rw [timeUntilNextLoop]
    cases se.not_before with
    | none => exact fun h => Option.noConfusion h
    | some nb => exact ih _

lemma timeUntilNextLoop_of_le (now : Int) :
    ∀ (l : List StepExecution) (e : Int), e ≤ now →
      timeUntilNextLoop now e l = some 0 := by
  intro l
  induction l with
  | nil =>
    intro e he
    rw [timeUntilNextLoop, if_pos he]
  | cons se rest ih =>
    intro e he
    rw [timeUntilNextLoop]
    cases se.not_before with
    | none => rfl
    | some nb =>
      refine ih _ ?_
      split <;> omega

lemma timeUntilNextLoop_eligible (now : Int) :
    ∀ (l : List StepExecution) (e : Int), (∃ se ∈ l, eligible now se = true) →
      timeUntilNextLoop now e l = some 0 := by
  intro l
  induction l with
  | nil =>
    intro e h
    obtain ⟨se, hmem, _⟩ := h
    cases hmem
  | cons u rest ih =>
    intro e h
    rw [timeUntilNextLoop]
    cases hu : u.not_before with
    | none => rfl
    | some nb =>
      obtain ⟨se, hmem, helig⟩ := h
      rcases List.mem_cons.1 hmem with rfl | hmem
      · have hnb : nb ≤ now := by
          unfold eligible at helig
          rw [hu] at helig
          simpa using helig
        refine timeUntilNextLoop_of_le now rest _ ?_
        split <;> omega
      · exact ih _ ⟨se, hmem, helig⟩

lemma foldMinNB_cons_none {se : StepExecution} (e : Int) (rest : List StepExecution)
    (h : se.not_before = none) : foldMinNB e (se :: rest) = foldMinNB e rest := by
  rw [foldMinNB, h]

lemma foldMinNB_cons_some {se : StepExecution} {nb : Int} (e : Int)
    (rest : List StepExecution) (h : se.not_before = some nb) :
    foldMinNB e (se :: rest) = foldMinNB (if nb < e then nb else e) rest := by
  rw [foldMinNB, h]

lemma timeUntilNextLoop_all_some (now : Int) :
    ∀ (l : List StepExecution) (e : Int), (∀ se ∈ l, se.not_before ≠ none) →
      timeUntilNextLoop now e l =
        if foldMinNB e l ≤ now then some 0 else some (foldMinNB e l - now) := by
  intro l
  induction l with
  | nil => intro e _; rfl
  | cons se rest ih =>
    intro e h
    rw [timeUntilNextLoop]
    cases hse : se.not_before with
    | none => exact absurd hse (h se (List.mem_cons_self se rest))
    | some nb =>
      rw [foldMinNB_cons_some e rest hse]
      exact ih _ fun u hu => h u (List.mem_cons_of_mem se hu)

lemma foldMinNB_le (l : List StepExecution) :
    ∀ e : Int, foldMinNB e l ≤ e := by
  induction l with
  | nil => intro e; exact le_rfl
  | cons se rest ih =>
    intro e
    cases hse : se.not_before with
    | none => rw [foldMinNB_cons_none e rest hse]; exact ih e
    | some nb =>
      rw [foldMinNB_cons_some e rest hse]
      refine le_trans (ih _) ?_
      split <;> omega

lemma foldMinNB_min (l : List StepExecution) :
    ∀ e : Int, ∀ se ∈ l, ∀ nb, se.not_before = some nb → foldMinNB e l ≤ nb := by
  induction l with
  | nil => intro e se h; cases h
  | cons u rest ih =>
    intro e se hmem nb hnb
    rcases List.mem_cons.1 hmem with rfl | hmem
    · rw [foldMinNB_cons_some e rest hnb]
      refine le_trans (foldMinNB_le rest _) ?_
      split <;> omega
    · cases hu : u.not_before with
      | none => rw [foldMinNB_cons_none e rest hu]; exact ih e se hmem nb hnb
      | some nbu => rw [foldMinNB_cons_some e rest hu]; exact ih _ se hmem nb hnb

lemma foldMinNB_attained (l : List StepExecution) :
    ∀ e : Int, foldMinNB e l = e
      ∨ ∃ se ∈ l, se.not_before = some (foldMinNB e l) := by
  induction l with
  | nil => intro e; exact Or.inl rfl
  | cons u rest ih =>
    intro e
    cases hu : u.not_before with
    | none =>
      rw [foldMinNB_cons_none e rest hu]
      rcases ih e with h | ⟨se, hmem, hse⟩
      · exact Or.inl h
      · exact Or.inr ⟨se, List.mem_cons_of_mem u hmem, hse⟩
    | some nb =>
      rw [foldMinNB_cons_some e rest hu]
      by_cases hlt : nb < e
      · rw [if_pos hlt]
        rcases ih nb with h | ⟨se, hmem, hse⟩
        · exact Or.inr ⟨u, List.mem_cons_self u rest, by rw [hu, h]⟩
        · exact Or.inr ⟨se, List.mem_cons_of_mem u hmem, hse⟩
      · rw [if_neg hlt]
        rcases ih e with h | ⟨se, hmem, hse⟩
        · exact Or.inl h
        · exact Or.inr ⟨se, List.mem_cons_of_mem u hmem, hse⟩

end SchedulerLemmas

/-- **C2 counterexample.** At the concrete queue `[sentinelStep]` (one
eligible item of primacy `0xEFFFFFFF`), `pop` returns `none` and removes
nothing although an eligible item exists, contradicting "returning None iff
no item is eligible"; and at the queue `[lateStep]` (one item whose
`not_before` is 100 seconds past `datetime(9999,1,1)`), `time_until_next 0`
returns the sentinel value instead of the minimum `not_before - now`. -/
theorem scheduler_claim_counterexample :
    pop 0 [sentinelStep] = (none, [sentinelStep])
    ∧ eligible 0 sentinelStep = true
    ∧ time_until_next 0 [lateStep] = some SENTINEL_NOT_BEFORE
    ∧ (∀ se ∈ [lateStep], se.not_before = some (SENTINEL_NOT_BEFORE + 100))
    ∧ SENTINEL_NOT_BEFORE ≠ SENTINEL_NOT_BEFORE + 100 - 0 := by
  refine ⟨by decide, by decide, ?_, by decide, by decide⟩
  decide

/-- **C2 (amended).** `pop(now)` never returns an ineligible item; a returned
item is eligible, has primacy strictly below the `0xEFFFFFFF` sentinel, is the
first item attaining the minimum primacy among the eligible items (every
earlier eligible item has strictly greater primacy, every later eligible item
has greater-or-equal primacy), and its first occurrence is removed from the
queue; `pop` returns `none` (removing nothing) iff every eligible item has
primacy at least the sentinel. `time_until_next(now)` is `none` iff the queue
is empty; it is zero whenever some item is eligible (in particular when some
`not_before` is unset); and on a non-empty queue whose `not_before` fields are
all set it equals, with `m` the minimum of the `datetime(9999,1,1)`
initialisation constant and all `not_before` values (the value of
`foldMinNB`), zero when `m ≤ now` and `m - now` otherwise — so for `now` at or
past `datetime(9999,1,1)` it is zero even with no eligible item. -/
theorem scheduler_pop_time_until_next_amended (now : Int) (items : List StepExecution) :
    (∀ r rest, pop now items = (some r, rest) →
        eligible now r = true
        ∧ r.primacy < LOWEST_PRIMACY_SENTINEL
        ∧ r ∈ items
        ∧ rest = items.erase r
        ∧ (∀ se ∈ items, eligible now se = true → r.primacy ≤ se.primacy)
        ∧ ∃ l1 l2, items = l1 ++ r :: l2
            ∧ (∀ x ∈ l1, eligible now x = true → r.primacy < x.primacy)
            ∧ (∀ x ∈ l2, eligible now x = true → r.primacy ≤ x.primacy))
    ∧ ((pop now items).1 = none ↔
        ∀ se ∈ items, eligible now se = true → LOWEST_PRIMACY_SENTINEL ≤ se.primacy)
    ∧ ((pop now items).1 = none → (pop now items).2 = items)
    ∧ (time_until_next now items = none ↔ items = [])
    ∧ ((∃ se ∈ items, eligible now se = true) → time_until_next now items = some 0)
    ∧ (items ≠ [] → (∀ se ∈ items, se.not_before ≠ none) →
        time_until_next now items
          = (if foldMinNB SENTINEL_NOT_BEFORE items ≤ now then some 0
             else some (foldMinNB SENTINEL_NOT_BEFORE items - now))
        ∧ foldMinNB SENTINEL_NOT_BEFORE items ≤ SENTINEL_NOT_BEFORE
        ∧ (∀ se ∈ items, ∀ nb, se.not_before = some nb →
            foldMinNB SENTINEL_NOT_BEFORE items ≤ nb)
        ∧ (foldMinNB SENTINEL_NOT_BEFORE items = SENTINEL_NOT_BEFORE
            ∨ ∃ se ∈ items,
                se.not_before = some (foldMinNB SENTINEL_NOT_BEFORE items))) := by
  have hif : ∀ l : List StepExecution, l ≠ [] → ¬(l.isEmpty = true) := by
    intro l hl h
    rw [isEmpty_false_of_ne_nil hl] at h
    exact Bool.noConfusion h
  refine ⟨?_, ?_, ?_, ?_, ?_, ?_⟩
  · intro r rest h
    unfold pop at h
    cases hscan : popScan now items none with
    | none => rw [hscan] at h; exact absurd h (by simp)
    | some r0 =>
      rw [hscan] at h
      injection h with h1 h2
      injection h1 with h1
      have hscan2 : popScan now items none = some r := by rw [hscan, h1]
      rcases popScan_first_min now items none r hscan2 with ⟨hb, _⟩ |
        ⟨l1, l2, hsplit, helig, hlt, hl1, hl2⟩
      · exact absurd hb (by simp)
      · have hltS : r.primacy < LOWEST_PRIMACY_SENTINEL := by
          simpa [lowestPrimacyBound] using hlt
        have hmem : r ∈ items := by rw [hsplit]; simp
        refine ⟨helig, hltS, hmem, by rw [← h2, h1], ?_,
          ⟨l1, l2, hsplit, hl1, hl2⟩⟩
        intro se hse hse_elig
        have hmin := popScan_bound_min now items none se hse hse_elig
        rw [hscan2] at hmin
        simpa [lowestPrimacyBound] using hmin
  · unfold pop
    cases hscan : popScan now items none with
    | none => simpa using (popScan_none_iff now items).1 hscan
    | some r =>
      simp only
      constructor
      · intro h; exact absurd h (by simp)
      · intro h
        have := (popScan_none_iff now items).2 h
        rw [hscan] at this
        exact absurd this (by simp)
  · intro h
    unfold pop at h ⊢
    cases hscan : popScan now items none with
    | none => rfl
    | some r => rw [hscan] at h; exact absurd h (by simp)
  · cases items with
    | nil => simp [time_until_next]
    | cons se rest =>
      have hne : time_until_next now (se :: rest) ≠ none := by
        rw [time_until_next, if_neg (hif (se :: rest) (by simp))]
        exact timeUntilNextLoop_ne_none now (se :: rest) SENTINEL_NOT_BEFORE
      constructor
      · intro h; exact absurd h hne
      · intro h; exact absurd h (by simp)
  · intro h
    obtain ⟨se, hmem, helig⟩ := h
    have hne : items ≠ [] := by
      intro heq; rw [heq] at hmem; cases hmem
    rw [time_until_next, if_neg (hif items hne)]
    exact timeUntilNextLoop_eligible now items SENTINEL_NOT_BEFORE ⟨se, hmem, helig⟩
  · intro hne hnone
    have hloop := timeUntilNextLoop_all_some now items SENTINEL_NOT_BEFORE hnone
    refine ⟨?_, foldMinNB_le items SENTINEL_NOT_BEFORE, ?_,
      foldMinNB_attained items SENTINEL_NOT_BEFORE⟩
    · rw [time_until_next, if_neg (hif items hne), hloop]
    · intro se hmem nb hnb
      exact foldMinNB_min items SENTINEL_NOT_BEFORE se hmem nb hnb

/-- Witness for the amended C2: `pop` and `time_until_next` at the concrete
queues `[readyStep]` (eligible, below-sentinel primacy) and `[lateStep]`
(whose `not_before` lies past the `datetime(9999,1,1)` constant, exercising
the capped minimum) with `now = 0`. -/
theorem scheduler_pop_time_until_next_amended_witness :
    eligible 0 readyStep = true
    ∧ readyStep.primacy < LOWEST_PRIMACY_SENTINEL
    ∧ time_until_next 0 [readyStep] = some 0
    ∧ time_until_next 0 [lateStep]
        = (if foldMinNB SENTINEL_NOT_BEFORE [lateStep] ≤ 0 then some 0
           else some (foldMinNB SENTINEL_NOT_BEFORE [lateStep] - 0)) := by
  have h1 := (scheduler_pop_time_until_next_amended 0 [readyStep]).1 readyStep []
    (by decide)
  have h5 := (scheduler_pop_time_until_next_amended 0 [readyStep]).2.2.2.2.1
    ⟨readyStep, by decide, by decide⟩
  have h6 := (scheduler_pop_time_until_next_amended 0 [lateStep]).2.2.2.2.2
    (by decide) (by decide)
  exact ⟨h1.1, h1.2.1, h5, h6.1⟩

/-- **C10.** `pop` compares candidate primacies against the internal sentinel
`0xEFFFFFFF`: whenever every eligible item has primacy at least the sentinel,
`pop(now)` returns `none` and leaves the queue unchanged, even though
`time_until_next(now)` simultaneously reports a zero wait whenever an eligible
item exists; and any item `pop` ever returns has primacy strictly below the
sentinel, so sentinel-primacy items can never be popped. -/
theorem pop_primacy_sentinel (now : Int) (items : List StepExecution)
    (h : ∀ se ∈ items, eligible now se = true → LOWEST_PRIMACY_SENTINEL ≤ se.primacy) :
    pop now items = (none, items)
    ∧ ((∃ se ∈ items, eligible now se = true) → time_until_next now items = some 0)
    ∧ ∀ (now2 : Int) (items2 : List StepExecution) (r : StepExecution)
        (rest : List StepExecution),
        pop now2 items2 = (some r, rest) → r.primacy < LOWEST_PRIMACY_SENTINEL := by
  refine ⟨?_, ?_, ?_⟩
  · unfold pop
    rw [(popScan_none_iff now items).2 h]
  · intro hex
    obtain ⟨se, hmem, helig⟩ := hex
    have hne : items ≠ [] := fun heq => by rw [heq] at hmem; cases hmem
    rw [time_until_next, if_neg (by simpa [List.isEmpty_iff] using hne)]
    exact timeUntilNextLoop_eligible now items SENTINEL_NOT_BEFORE ⟨se, hmem, helig⟩
  · intro now2 items2 r rest hpop
    unfold pop at hpop
    cases hscan : popScan now2 items2 none with
    | none => rw [hscan] at hpop; exact absurd hpop (by simp)
    | some r0 =>
      rw [hscan] at hpop
      have hr : r0 = r := Option.some.inj (congrArg Prod.fst hpop)
      subst hr
      rcases popScan_result_cases now2 items2 none r0 hscan with hb | ⟨_, _, hlt⟩
      · exact absurd hb (by simp)
      · exact hlt

/-- Witness for C10 at the concrete queue `[sentinelStep]` and `now = 0`. -/
theorem pop_primacy_sentinel_witness :
    pop 0 [sentinelStep] = (none, [sentinelStep])
    ∧ time_until_next 0 [sentinelStep] = some 0 := by
  have h := pop_primacy_sentinel 0 [sentinelStep] (by decide)
  exact ⟨h.1, h.2.1 ⟨sentinelStep, by decide, by decide⟩⟩

section PaginationLemmas

variable {α : Type} (server : Nat → Page α) (list_href : String) (page_size : Nat)

lemma paginateLoop_shift :
    ∀ (rem : Nat), ∀ (st : Nat) (av : List Int) (acc : List α) (offsets : List Nat)
      (hrefs : List String) (warns : List PagWarning),
      paginateLoop server list_href page_size rem st acc offsets hrefs warns av =
        { raised := (pagCore server list_href page_size rem st av).raised
          items := acc ++ (pagCore server list_href page_size rem st av).items
          offsets := offsets ++ (pagCore server list_href page_size rem st av).offsets
          hrefs := hrefs ++ (pagCore server list_href page_size rem st av).hrefs
          warnings := warns ++ (pagCore server list_href page_size rem st av).warnings } := by
  intro rem
  induction rem using Nat.strong_induction_on with
  | _ rem ih =>
    intro st av acc offsets hrefs warns
    match rem with
    | 0 =>
      rw [pagCore, paginateLoop, paginateLoop]
      by_cases hemp : (server st).items.length = 0
      · simp [hemp]
      · simp [hemp]
    | 1 =>
      rw [pagCore, paginateLoop, paginateLoop]
      by_cases hemp : (server st).items.length = 0
      · simp [hemp]
      · simp [hemp]
    | r + 2 =>
      rw [pagCore, paginateLoop]
      conv_rhs => rw [paginateLoop]
      by_cases hemp : (server st).items.length = 0
      · simp [hemp]
      · simp only [if_neg hemp]
        rw [ih (r + 1) (by omega) (st + page_size)
            (av ++ allEntry (server st).all_)
            (acc ++ (server st).items) (offsets ++ [st])
            (hrefs ++ [pageHref list_href page_size st])
            (warns ++ pageWarnings st (server st)),
          ih (r + 1) (by omega) (st + page_size)
            (av ++ allEntry (server st).all_)
            ([] ++ (server st).items) ([] ++ [st])
            ([] ++ [pageHref list_href page_size st])
            ([] ++ pageWarnings st (server st))]
        simp [List.append_assoc]

lemma pagCore_empty {st : Nat} (rem : Nat) (av : List Int)
    (hemp : (server st).items.length = 0) :
    pagCore server list_href page_size rem st av =
      { raised := false
        items := (server st).items
        offsets := [st]
        hrefs := [pageHref list_href page_size st]
        warnings := pageWarnings st (server st)
          ++ finalAllWarning (av ++ allEntry (server st).all_) } := by
  match rem with
  | 0 => rw [pagCore, paginateLoop]; simp [hemp]
  | 1 => rw [pagCore, paginateLoop]; simp [hemp]
  | r + 2 => rw [pagCore, paginateLoop]; simp [hemp]

lemma pagCore_raise {st : Nat} {rem : Nat} (av : List Int)
    (hemp : ¬ (server st).items.length = 0) (hrem : rem = 0 ∨ rem = 1) :
    pagCore server list_href page_size rem st av =
      { raised := true
        items := (server st).items
        offsets := [st]
        hrefs := [pageHref list_href page_size st]
        warnings := pageWarnings st (server st) } := by
  rcases hrem with rfl | rfl
  · rw [pagCore, paginateLoop]; simp [hemp]
  · rw [pagCore, paginateLoop]; simp [hemp]

lemma pagCore_step {st : Nat} (r : Nat) (av : List Int)
    (hemp : ¬ (server st).items.length = 0) :
    pagCore server list_href page_size (r + 2) st av =
      { raised := (pagCore server list_href page_size (r + 1) (st + page_size)
          (av ++ allEntry (server st).all_)).raised
        items := (server st).items ++ (pagCore server list_href page_size (r + 1)
          (st + page_size) (av ++ allEntry (server st).all_)).items
        offsets := st :: (pagCore server list_href page_size (r + 1) (st + page_size)
          (av ++ allEntry (server st).all_)).offsets
        hrefs := pageHref list_href page_size st :: (pagCore server list_href page_size
          (r + 1) (st + page_size) (av ++ allEntry (server st).all_)).hrefs
        warnings := pageWarnings st (server st) ++ (pagCore server list_href page_size
          (r + 1) (st + page_size) (av ++ allEntry (server st).all_)).warnings } := by
  rw [pagCore, paginateLoop]
  rw [if_neg hemp]
  rw [paginateLoop_shift server list_href page_size (r + 1) (st + page_size)
    (av ++ allEntry (server st).all_) ([] ++ (server st).items) ([] ++ [st])
    ([] ++ [pageHref list_href page_size st]) ([] ++ pageWarnings st (server st))]
  simp

lemma pagCore_offsets_ne_nil :
    ∀ (rem st : Nat) (av : List Int),
      (pagCore server list_href page_size rem st av).offsets ≠ [] := by
  intro rem st av
  by_cases hemp : (server st).items.length = 0
  · rw [pagCore_empty server list_href page_size rem av hemp]
    simp
  · match rem with
    | 0 =>
      rw [pagCore_raise server list_href page_size av hemp (Or.inl rfl)]
      simp
    | 1 =>
      rw [pagCore_raise server list_href page_size av hemp (Or.inr rfl)]
      simp
    | r + 2 =>
      rw [pagCore_step server list_href page_size r av hemp]
      simp

lemma pagCore_offsets :
    ∀ (rem st : Nat) (av : List Int),
      (pagCore server list_href page_size rem st av).offsets =
        (List.range (pagCore server list_href page_size rem st av).offsets.length).map
          (fun i => st + i * page_size) := by
  intro rem
  induction rem using Nat.strong_induction_on with
  | _ rem ih =>
    intro st av
    by_cases hemp : (server st).items.length = 0
    · rw [pagCore_empty server list_href page_size rem av hemp]
      simp [List.range_succ]
    · match rem with
      | 0 =>
        rw [pagCore_raise server list_href page_size av hemp (Or.inl rfl)]
        simp [List.range_succ]
      | 1 =>
        rw [pagCore_raise server list_href page_size av hemp (Or.inr rfl)]
        simp [List.range_succ]
      | r + 2 =>
        rw [pagCore_step server list_href page_size r av hemp]
        simp only [List.length_cons, List.range_succ_eq_map, List.map_cons, List.map_map,
          Nat.zero_mul, Nat.add_zero, List.cons.injEq, true_and]
        rw [ih (r + 1) (by omega) (st + page_size) (av ++ allEntry (server st).all_)]
        simp only [List.length_map, List.length_range]
        refine Eq.symm (List.map_congr_left ?_)
        intro a _
        simp only [Function.comp_apply, Nat.succ_eq_add_one]
        ring

lemma pagCore_hrefs :
    ∀ (rem st : Nat) (av : List Int),
      (pagCore server list_href page_size rem st av).hrefs =
        (pagCore server list_href page_size rem st av).offsets.map
          (pageHref list_href page_size) := by
  intro rem
  induction rem using Nat.strong_induction_on with
  | _ rem ih =>
    intro st av
    by_cases hemp : (server st).items.length = 0
    · rw [pagCore_empty server list_href page_size rem av hemp]
      simp
    · match rem with
      | 0 =>
        rw [pagCore_raise server list_href page_size av hemp (Or.inl rfl)]
        simp
      | 1 =>
        rw [pagCore_raise server list_href page_size av hemp (Or.inr rfl)]
        simp
      | r + 2 =>
        rw [pagCore_step server list_href page_size r av hemp]
        simp only [List.map_cons, List.cons.injEq, true_and]
        exact ih (r + 1) (by omega) (st + page_size) (av ++ allEntry (server st).all_)

lemma pagCore_items :
    ∀ (rem st : Nat) (av : List Int),
      (pagCore server list_href page_size rem st av).items =
        ((pagCore server list_href page_size rem st av).offsets.map
          (fun o => (server o).items)).flatten := by
  intro rem
  induction rem using Nat.strong_induction_on with
  | _ rem ih =>
    intro st av
    by_cases hemp : (server st).items.length = 0
    · rw [pagCore_empty server list_href page_size rem av hemp]
      simp
    · match rem with
      | 0 =>
        rw [pagCore_raise server list_href page_size av hemp (Or.inl rfl)]
        simp
      | 1 =>
        rw [pagCore_raise server list_href page_size av hemp (Or.inr rfl)]
        simp
      | r + 2 =>
        rw [pagCore_step server list_href page_size r av hemp]
        simp only [List.map_cons, List.flatten_cons, List.append_cancel_left_eq]
        exact ih (r + 1) (by omega) (st + page_size) (av ++ allEntry (server st).all_)

lemma pagCore_length_le :
    ∀ (rem st : Nat) (av : List Int),
      (pagCore server list_href page_size rem st av).offsets.length ≤ max 1 rem := by
  intro rem
  induction rem using Nat.strong_induction_on with
  | _ rem ih =>
    intro st av
    by_cases hemp : (server st).items.length = 0
    · rw [pagCore_empty server list_href page_size rem av hemp]
      simp
    · match rem with
      | 0 =>
        rw [pagCore_raise server list_href page_size av hemp (Or.inl rfl)]
        simp
      | 1 =>
        rw [pagCore_raise server list_href page_size av hemp (Or.inr rfl)]
        simp
      | r + 2 =>
        rw [pagCore_step server list_href page_size r av hemp]
        have h := ih (r + 1) (by omega) (st + page_size) (av ++ allEntry (server st).all_)
        simp only [List.length_cons]
        omega

lemma pagCore_raised_iff :
    ∀ (rem st : Nat) (av : List Int),
      (pagCore server list_href page_size rem st av).raised = true ↔
        ∀ i < max 1 rem, (server (st + i * page_size)).items ≠ [] := by
  intro rem
  induction rem using Nat.strong_induction_on with
  | _ rem ih =>
    intro st av
    by_cases hemp : (server st).items.length = 0
    · rw [pagCore_empty server list_href page_size rem av hemp]
      simp only [Bool.false_eq_true, false_iff]
      intro h
      exact absurd (List.length_eq_zero.1 hemp) (by simpa using h 0 (by omega))
    · match rem with
      | 0 =>
        rw [pagCore_raise server list_href page_size av hemp (Or.inl rfl)]
        simp only [true_iff]
        intro i hi
        have : i = 0 := by omega
        subst this
        simpa using fun h => hemp (by rw [h]; rfl)
      | 1 =>
        rw [pagCore_raise server list_href page_size av hemp (Or.inr rfl)]
        simp only [true_iff]
        intro i hi
        have : i = 0 := by omega
        subst this
        simpa using fun h => hemp (by rw [h]; rfl)
      | r + 2 =>
        rw [pagCore_step server list_href page_size r av hemp]
        simp only
        rw [ih (r + 1) (by omega) (st + page_size) (av ++ allEntry (server st).all_)]
        constructor
        · intro h i hi
          match i with
          | 0 =>
            simpa using fun habs => hemp (by rw [habs]; rfl)
          | j + 1 =>
            have hj : j < max 1 (r + 1) := by omega
            have := h j hj
            have harith : st + page_size + j * page_size = st + (j + 1) * page_size := by
              ring
            rw [harith] at this
            exact this
        · intro h j hj
          have hj2 : j + 1 < max 1 (r + 2) := by omega
          have := h (j + 1) hj2
          have harith : st + page_size + j * page_size = st + (j + 1) * page_size := by
            ring
          rw [harith]
          exact this

lemma pagCore_stop :
    ∀ (rem st : Nat) (av : List Int),
      (pagCore server list_href page_size rem st av).raised = false →
        ∃ o, (pagCore server list_href page_size rem st av).offsets.getLast? = some o
          ∧ (server o).items = []
          ∧ ∀ o2 ∈ (pagCore server list_href page_size rem st av).offsets.dropLast,
              (server o2).items ≠ [] := by
  intro rem
  induction rem using Nat.strong_induction_on with
  | _ rem ih =>
    intro st av hraised
    by_cases hemp : (server st).items.length = 0
    · rw [pagCore_empty server list_href page_size rem av hemp]
      exact ⟨st, by simp, List.length_eq_zero.1 hemp, by simp⟩
    · match rem with
      | 0 =>
        rw [pagCore_raise server list_href page_size av hemp (Or.inl rfl)] at hraised
        exact absurd hraised (by simp)
      | 1 =>
        rw [pagCore_raise server list_href page_size av hemp (Or.inr rfl)] at hraised
        exact absurd hraised (by simp)
      | r + 2 =>
        rw [pagCore_step server list_href page_size r av hemp] at hraised ⊢
        simp only at hraised
        obtain ⟨o, hlast, hoempty, hrest⟩ :=
          ih (r + 1) (by omega) (st + page_size) (av ++ allEntry (server st).all_) hraised
        have hne := pagCore_offsets_ne_nil server list_href page_size (r + 1)
          (st + page_size) (av ++ allEntry (server st).all_)
        obtain ⟨b, tl, htl⟩ := List.exists_cons_of_ne_nil hne
        refine ⟨o, ?_, hoempty, ?_⟩
        · simp only [htl] at hlast ⊢
          rw [List.getLast?_cons_cons]
          exact hlast
        · intro o2 ho2
          simp only [htl] at ho2 hrest
          rw [List.dropLast_cons₂] at ho2
          rcases List.mem_cons.1 ho2 with rfl | ho2
          · intro habs
            exact hemp (by rw [habs]; rfl)
          · exact hrest o2 ho2

lemma pagCore_shape_agnostic (server2 : Nat → Page α)
    (hsame : ∀ o, (server o).items = (server2 o).items) :
    ∀ (rem st : Nat) (av av2 : List Int),
      (pagCore server list_href page_size rem st av).raised
          = (pagCore server2 list_href page_size rem st av2).raised
      ∧ (pagCore server list_href page_size rem st av).offsets
          = (pagCore server2 list_href page_size rem st av2).offsets := by
  intro rem
  induction rem using Nat.strong_induction_on with
  | _ rem ih =>
    intro st av av2
    by_cases hemp : (server st).items.length = 0
    · have hemp2 : (server2 st).items.length = 0 := by rw [← hsame st]; exact hemp
      rw [pagCore_empty server list_href page_size rem av hemp,
        pagCore_empty server2 list_href page_size rem av2 hemp2]
      exact ⟨rfl, rfl⟩
    · have hemp2 : ¬ (server2 st).items.length = 0 := by rw [← hsame st]; exact hemp
      match rem with
      | 0 =>
        rw [pagCore_raise server list_href page_size av hemp (Or.inl rfl),
          pagCore_raise server2 list_href page_size av2 hemp2 (Or.inl rfl)]
        exact ⟨rfl, rfl⟩
      | 1 =>
        rw [pagCore_raise server list_href page_size av hemp (Or.inr rfl),
          pagCore_raise server2 list_href page_size av2 hemp2 (Or.inr rfl)]
        exact ⟨rfl, rfl⟩
      | r + 2 =>
        rw [pagCore_step server list_href page_size r av hemp,
          pagCore_step server2 list_href page_size r av2 hemp2]
        obtain ⟨h1, h2⟩ := ih (r + 1) (by omega) (st + page_size)
          (av ++ allEntry (server st).all_) (av2 ++ allEntry (server2 st).all_)
        exact ⟨h1, by rw [h2]⟩

lemma pagCore_warnings_raised :
    ∀ (rem st : Nat) (av : List Int),
      (pagCore server list_href page_size rem st av).raised = true →
        (pagCore server list_href page_size rem st av).warnings =
          ((pagCore server list_href page_size rem st av).offsets.map
            (fun o => pageWarnings o (server o))).flatten := by
  intro rem
  induction rem using Nat.strong_induction_on with
  | _ rem ih =>
    intro st av hraised
    by_cases hemp : (server st).items.length = 0
    · rw [pagCore_empty server list_href page_size rem av hemp] at hraised
      exact absurd hraised (by simp)
    · match rem with
      | 0 =>
        rw [pagCore_raise server list_href page_size av hemp (Or.inl rfl)]
        simp
      | 1 =>
        rw [pagCore_raise server list_href page_size av hemp (Or.inr rfl)]
        simp
      | r + 2 =>
        rw [pagCore_step server list_href page_size r av hemp] at hraised ⊢
        simp only at hraised
        simp only [List.map_cons, List.flatten_cons, List.append_cancel_left_eq]
        exact ih (r + 1) (by omega) (st + page_size) (av ++ allEntry (server st).all_) hraised

lemma pagCore_warnings_ok :
    ∀ (rem st : Nat) (av : List Int),
      (pagCore server list_href page_size rem st av).raised = false →
        (pagCore server list_href page_size rem st av).warnings =
          ((pagCore server list_href page_size rem st av).offsets.map
            (fun o => pageWarnings o (server o))).flatten
          ++ finalAllWarning (av ++
              ((pagCore server list_href page_size rem st av).offsets.map
                (fun o => allEntry (server o).all_)).flatten) := by
  intro rem
  induction rem using Nat.strong_induction_on with
  | _ rem ih =>
    intro st av hraised
    by_cases hemp : (server st).items.length = 0
    · rw [pagCore_empty server list_href page_size rem av hemp]
      simp
    · match rem with
      | 0 =>
        rw [pagCore_raise server list_href page_size av hemp (Or.inl rfl)] at hraised
        exact absurd hraised (by simp)
      | 1 =>
        rw [pagCore_raise server list_href page_size av hemp (Or.inr rfl)] at hraised
        exact absurd hraised (by simp)
      | r + 2 =>
        rw [pagCore_step server list_href page_size r av hemp] at hraised ⊢
        simp only at hraised
        simp only [List.map_cons, List.flatten_cons, List.append_assoc,
          List.append_cancel_left_eq]
        rw [ih (r + 1) (by omega) (st + page_size) (av ++ allEntry (server st).all_) hraised]
        rw [List.append_assoc]

lemma paginate_eq_pagCore (max_pages : Nat) :
    paginate_list_object_items server list_href page_size max_pages =
      pagCore server list_href page_size max_pages 0 [] := rfl

lemma paginate_offsets_nodup (max_pages : Nat) (hl : 0 < page_size) :
    (paginate_list_object_items server list_href page_size max_pages).offsets.Nodup := by
  rw [paginate_eq_pagCore, pagCore_offsets]
  refine List.Nodup.map ?_ (List.nodup_range _)
  intro a b h
  simp only [Nat.zero_add] at h
  exact Nat.eq_of_mul_eq_mul_right hl h

lemma count_flatten_single {β : Type} [DecidableEq β] (f : Nat → List β) (w : β) (o : Nat)
    (hW : ∀ o2, o2 ≠ o → w ∉ f o2) :
    ∀ os : List Nat, os.Nodup → o ∈ os →
      ((os.map f).flatten).count w = (f o).count w := by
  intro os
  induction os with
  | nil => intro _ h; cases h
  | cons u rest ih =>
    intro hnd hmem
    simp only [List.map_cons, List.flatten_cons, List.count_append]
    rcases List.mem_cons.1 hmem with rfl | hmem
    · have hrest : ((rest.map f).flatten).count w = 0 := by
        rw [List.count_eq_zero]
        intro habs
        rw [List.mem_flatten] at habs
        obtain ⟨l, hl, hwl⟩ := habs
        rw [List.mem_map] at hl
        obtain ⟨o2, ho2, rfl⟩ := hl
        have hne : o2 ≠ o := fun h => (List.nodup_cons.1 hnd).1 (h ▸ ho2)
        exact hW o2 hne hwl
      omega
    · have hu : u ≠ o := fun h => (List.nodup_cons.1 hnd).1 (h ▸ hmem)
      have hcount : (f u).count w = 0 := by
        rw [List.count_eq_zero]
        exact hW u hu
      rw [hcount, ih (List.nodup_cons.1 hnd).2 hmem]
      omega

lemma mem_pageWarnings {w : PagWarning} {o2 : Nat} {page : Page α}
    (hw : w ∈ pageWarnings o2 page) :
    (w = PagWarning.missingResults o2 ∧ page.results = none)
    ∨ (∃ r, w = PagWarning.resultsMismatch o2 r page.items.length
        ∧ page.results = some r ∧ r ≠ (page.items.length : Int))
    ∨ (w = PagWarning.missingAll o2 ∧ page.all_ = none) := by
  cases hres : page.results with
  | none =>
    cases hall : page.all_ with
    | none =>
      simp only [pageWarnings, resultsWarnings, allWarnings, hres, hall,
        List.mem_append, List.mem_singleton] at hw
      rcases hw with rfl | rfl
      · exact Or.inl ⟨rfl, rfl⟩
      · exact Or.inr (Or.inr ⟨rfl, rfl⟩)
    | some a =>
      simp only [pageWarnings, resultsWarnings, allWarnings, hres, hall,
        List.mem_append, List.mem_singleton, List.not_mem_nil, or_false] at hw
      subst hw
      exact Or.inl ⟨rfl, rfl⟩
  | some r =>
    by_cases hmis : r ≠ (page.items.length : Int)
    · cases hall : page.all_ with
      | none =>
        simp only [pageWarnings, resultsWarnings, allWarnings, hres, hall,
          if_pos hmis, List.mem_append, List.mem_singleton] at hw
        rcases hw with rfl | rfl
        · exact Or.inr (Or.inl ⟨r, rfl, rfl, hmis⟩)
        · exact Or.inr (Or.inr ⟨rfl, rfl⟩)
      | some a =>
        simp only [pageWarnings, resultsWarnings, allWarnings, hres, hall,
          if_pos hmis, List.mem_append, List.mem_singleton, List.not_mem_nil,
          or_false] at hw
        subst hw
        exact Or.inr (Or.inl ⟨r, rfl, rfl, hmis⟩)
    · cases hall : page.all_ with
      | none =>
        simp only [pageWarnings, resultsWarnings, allWarnings, hres, hall,
          if_neg hmis, List.mem_append, List.mem_singleton, List.not_mem_nil,
          false_or] at hw
        subst hw
        exact Or.inr (Or.inr ⟨rfl, rfl⟩)
      | some a =>
        simp only [pageWarnings, resultsWarnings, allWarnings, hres, hall,
          if_neg hmis, List.mem_append, List.not_mem_nil, or_self] at hw

lemma mem_finalAllWarning {w : PagWarning} {z : List Int}
    (hw : w ∈ finalAllWarning z) : w = PagWarning.allVaried := by
  unfold finalAllWarning at hw
  split at hw
  · simpa using hw
  · simp at hw

lemma count_missingResults_one (o : Nat) (page : Page α) (hres : page.results = none) :
    (pageWarnings o page).count (PagWarning.missingResults o) = 1 := by
  cases hall : page.all_ with
  | none =>
    simp [pageWarnings, resultsWarnings, allWarnings, hres, hall, List.count_cons,
      List.count_append]
  | some a =>
    simp [pageWarnings, resultsWarnings, allWarnings, hres, hall, List.count_cons,
      List.count_append]

lemma count_resultsMismatch_one (o : Nat) (rep : Int) (page : Page α)
    (hres : page.results = some rep) (hne : rep ≠ (page.items.length : Int)) :
    (pageWarnings o page).count
      (PagWarning.resultsMismatch o rep page.items.length) = 1 := by
  cases hall : page.all_ with
  | none =>
    simp [pageWarnings, resultsWarnings, allWarnings, hres, hall, if_pos hne,
      List.count_cons, List.count_append]
  | some a =>
    simp [pageWarnings, resultsWarnings, allWarnings, hres, hall, if_pos hne,
      List.count_cons, List.count_append]

lemma count_missingAll_one (o : Nat) (page : Page α) (hall : page.all_ = none) :
    (pageWarnings o page).count (PagWarning.missingAll o) = 1 := by
  cases hres : page.results with
  | none =>
    simp [pageWarnings, resultsWarnings, allWarnings, hres, hall, List.count_cons,
      List.count_append]
  | some r =>
    by_cases hmis : r ≠ (page.items.length : Int)
    · simp [pageWarnings, resultsWarnings, allWarnings, hres, hall, if_pos hmis,
        List.count_cons, List.count_append]
    · simp [pageWarnings, resultsWarnings, allWarnings, hres, hall, if_neg hmis,
        List.count_cons, List.count_append]

lemma paginate_count_tagged (max_pages : Nat) (hl : 0 < page_size) (w : PagWarning)
    (o : Nat)
    (hof : o ∈ (paginate_list_object_items server list_href page_size max_pages).offsets)
    (hno : ∀ o2, o2 ≠ o → w ∉ pageWarnings o2 (server o2))
    (hnav : w ≠ PagWarning.allVaried) :
    (paginate_list_object_items server list_href page_size max_pages).warnings.count w =
      (pageWarnings o (server o)).count w := by
  have hnodup := paginate_offsets_nodup server list_href page_size max_pages hl
  rw [paginate_eq_pagCore] at hof hnodup ⊢
  have hflat :
      (((pagCore server list_href page_size max_pages 0 []).offsets.map
        (fun o2 => pageWarnings o2 (server o2))).flatten).count w =
        (pageWarnings o (server o)).count w :=
    count_flatten_single (fun o2 => pageWarnings o2 (server o2)) w o hno _ hnodup hof
  cases hr : (pagCore server list_href page_size max_pages 0 []).raised with
  | true =>
    rw [pagCore_warnings_raised server list_href page_size max_pages 0 [] hr, hflat]
  | false =>
    rw [pagCore_warnings_ok server list_href page_size max_pages 0 [] hr,
      List.count_append, hflat]
    have hfin : (finalAllWarning ([] ++
        ((pagCore server list_href page_size max_pages 0 []).offsets.map
          (fun o2 => allEntry (server o2).all_)).flatten)).count w = 0 := by
      rw [List.count_eq_zero]
      intro hmem
      exact hnav (mem_finalAllWarning hmem)
    rw [hfin]
    omega

lemma paginate_count_absent (max_pages : Nat) (w : PagWarning)
    (hno : ∀ o2, w ∉ pageWarnings o2 (server o2))
    (hnav : w ≠ PagWarning.allVaried) :
    (paginate_list_object_items server list_href page_size max_pages).warnings.count w
      = 0 := by
  rw [paginate_eq_pagCore]
  have hflat : ∀ L : List Nat,
      w ∉ ((L.map (fun o2 => pageWarnings o2 (server o2))).flatten) := by
    intro L hmem
    rw [List.mem_flatten] at hmem
    obtain ⟨l, hlmem, hwl⟩ := hmem
    rw [List.mem_map] at hlmem
    obtain ⟨o2, _, rfl⟩ := hlmem
    exact hno o2 hwl
  cases hr : (pagCore server list_href page_size max_pages 0 []).raised with
  | true =>
    rw [pagCore_warnings_raised server list_href page_size max_pages 0 [] hr,
      List.count_eq_zero]
    exact hflat _
  | false =>
    rw [pagCore_warnings_ok server list_href page_size max_pages 0 [] hr,
      List.count_append]
    have h1 : (((pagCore server list_href page_size max_pages 0 []).offsets.map
        (fun o2 => pageWarnings o2 (server o2))).flatten).count w = 0 := by
      rw [List.count_eq_zero]
      exact hflat _
    have h2 : (finalAllWarning ([] ++
        ((pagCore server list_href page_size max_pages 0 []).offsets.map
          (fun o2 => allEntry (server o2).all_)).flatten)).count w = 0 := by
      rw [List.count_eq_zero]
      intro hmem
      exact hnav (mem_finalAllWarning hmem)
    rw [h1, h2]

end PaginationLemmas

/-- **C3 counterexample.** At the concrete well-behaved server carrying six
items (pages of sizes [2,2,2] at page size 2), pagination issues four
requests, at offsets 0, 2, 4 and 6 — not three requests at offsets 0, 2, 4 as
claimed; and at the server carrying three items (final non-empty page of size
1 < 2), pagination does not stop after that partial page: it issues an extra
request at offset 4. -/
theorem pagination_request_count_counterexample :
    (paginate_list_object_items (serverOfItems [10, 11, 12, 13, 14, 15] 2) "/edev" 2 20).offsets
        = [0, 2, 4, 6]
    ∧ ¬ (paginate_list_object_items (serverOfItems [10, 11, 12, 13, 14, 15] 2) "/edev" 2 20).offsets
        = [0, 2, 4]
    ∧ (paginate_list_object_items (serverOfItems [10, 11, 12] 2) "/edev" 2 20).offsets
        = [0, 2, 4]
    ∧ (serverOfItems [10, 11, 12] 2 2).items = [12]
    ∧ ¬ (paginate_list_object_items (serverOfItems [10, 11, 12] 2) "/edev" 2 20).offsets
        = [0, 2] := by
  exact ⟨by decide, by decide, by decide, by decide, by decide⟩

/-- **C3 (amended).** Pagination repeatedly fetches
`list_href + "?s=" + offset + "&l=" + page_size` starting at offset 0 with the
offset increasing by `page_size` each request, stops only after a fetched page
yields zero items (every earlier page being non-empty), and returns the
concatenation of all pages' items in order.  In particular, given pages of
sizes [2,2,2] with page size 2, four requests occur, at offsets 0, 2, 4 and 6
(the last page being empty), and given a final non-empty page with fewer items
than the page size, pagination issues one extra request (which yields zero
items) before stopping. -/
theorem pagination_requests_amended {α : Type} (server : Nat → Page α)
    (list_href : String) (page_size max_pages : Nat) :
    (paginate_list_object_items server list_href page_size max_pages).offsets =
        (List.range
          (paginate_list_object_items server list_href page_size max_pages).offsets.length).map
          (fun i => i * page_size)
    ∧ (paginate_list_object_items server list_href page_size max_pages).hrefs =
        (paginate_list_object_items server list_href page_size max_pages).offsets.map
          (pageHref list_href page_size)
    ∧ (paginate_list_object_items server list_href page_size max_pages).items =
        ((paginate_list_object_items server list_href page_size max_pages).offsets.map
          (fun o => (server o).items)).flatten
    ∧ ((paginate_list_object_items server list_href page_size max_pages).raised = false →
        ∃ o, (paginate_list_object_items server list_href page_size max_pages).offsets.getLast?
              = some o
          ∧ (server o).items = []
          ∧ ∀ o2 ∈ (paginate_list_object_items server list_href page_size
              max_pages).offsets.dropLast, (server o2).items ≠ [])
    ∧ pageHref "/edev" 2 4 = "/edev?s=4&l=2"
    ∧ (paginate_list_object_items (serverOfItems [10, 11, 12, 13, 14, 15] 2) "/edev" 2 20).offsets
        = [0, 2, 4, 6]
    ∧ (paginate_list_object_items (serverOfItems [10, 11, 12, 13, 14, 15] 2) "/edev" 2 20).items
        = [10, 11, 12, 13, 14, 15]
    ∧ (paginate_list_object_items (serverOfItems [10, 11, 12] 2) "/edev" 2 20).offsets
        = [0, 2, 4]
    ∧ (paginate_list_object_items (serverOfItems [10, 11, 12] 2) "/edev" 2 20).items
        = [10, 11, 12] := by
  refine ⟨?_, ?_, ?_, ?_, by decide, by decide, by decide, by decide, by decide⟩
  · rw [paginate_eq_pagCore]
    simpa using pagCore_offsets server list_href page_size max_pages 0 []
  · rw [paginate_eq_pagCore]
    exact pagCore_hrefs server list_href page_size max_pages 0 []
  · rw [paginate_eq_pagCore]
    exact pagCore_items server list_href page_size max_pages 0 []
  · rw [paginate_eq_pagCore]
    exact pagCore_stop server list_href page_size max_pages 0 []

/-- Witness for the amended C3 at the three-item server: the run did not
raise, so it ended on an empty page. -/
theorem pagination_requests_amended_witness :
    ∃ o, (paginate_list_object_items (serverOfItems [10, 11, 12] 2) "/edev" 2 20).offsets.getLast?
          = some o
      ∧ (serverOfItems [10, 11, 12] 2 o).items = []
      ∧ ∀ o2 ∈ (paginate_list_object_items (serverOfItems [10, 11, 12] 2) "/edev" 2
          20).offsets.dropLast, (serverOfItems [10, 11, 12] 2 o2).items ≠ [] :=
  (pagination_requests_amended (serverOfItems [10, 11, 12] 2) "/edev" 2 20).2.2.2.1
    (by decide)

/-- **C4.** For every modelled server, `paginate_list_object_items`
terminates: it requests at most `max_pages + 1` pages in total; when it
returns without raising, the final requested page is the first empty page;
and it raises the safety-valve `RequestException` exactly when the first
`max 1 max_pages` pages served at offsets `0, page_size, ...` are all
non-empty (the default maximum being 20 pages). -/
theorem pagination_termination_bound {α : Type} (server : Nat → Page α)
    (list_href : String) (page_size max_pages : Nat) :
    (paginate_list_object_items server list_href page_size max_pages).offsets.length
        ≤ max_pages + 1
    ∧ ((paginate_list_object_items server list_href page_size max_pages).raised = false →
        ∃ o, (paginate_list_object_items server list_href page_size max_pages).offsets.getLast?
              = some o
          ∧ (server o).items = [])
    ∧ ((paginate_list_object_items server list_href page_size max_pages).raised = true ↔
        ∀ i < max 1 max_pages, (server (i * page_size)).items ≠ [])
    ∧ MAX_PAGES_REQUESTED_DEFAULT = 20 := by
  refine ⟨?_, ?_, ?_, rfl⟩
  · rw [paginate_eq_pagCore]
    have h := pagCore_length_le server list_href page_size max_pages 0 []
    have h2 : max 1 max_pages ≤ max_pages + 1 := max_le (by omega) (by omega)
    omega
  · rw [paginate_eq_pagCore]
    intro hr
    obtain ⟨o, hlast, hempty, _⟩ :=
      pagCore_stop server list_href page_size max_pages 0 [] hr
    exact ⟨o, hlast, hempty⟩
  · rw [paginate_eq_pagCore]
    have h := pagCore_raised_iff server list_href page_size max_pages 0 []
    simpa using h

/-- Witness for C4 at the never-ending server with `max_pages = 3`: the
safety valve raises, and no more than four requests were issued. -/
theorem pagination_termination_bound_witness :
    (paginate_list_object_items constPageServer "/edev" 2 3).raised = true
    ∧ (paginate_list_object_items constPageServer "/edev" 2 3).offsets.length ≤ 4 := by
  refine ⟨?_, (pagination_termination_bound constPageServer "/edev" 2 3).1⟩
  exact (pagination_termination_bound constPageServer "/edev" 2 3).2.2.1.mpr (by decide)

/-- **C5 counterexample.** At the concrete server whose page reports a total
(`all_ = 5`) disagreeing with the actual item count (one item), pagination
emits no warning at all (the source only checks the per-page `results` field
against the parsed count, the presence of `all_`, and the cross-page
stability of `all_`). -/
theorem pagination_all_total_counterexample :
    (paginate_list_object_items badAllServer "/edev" 2 20).warnings = []
    ∧ (badAllServer 0).all_ = some 5
    ∧ (paginate_list_object_items badAllServer "/edev" 2 20).items = [7]
    ∧ ((paginate_list_object_items badAllServer "/edev" 2 20).items.length : Int) ≠ 5 := by
  exact ⟨by decide, rfl, by decide, by decide⟩

/-- **C5 (amended).** Each per-page consistency check produces only a
non-fatal warning and never alters what pagination fetches or returns: for
every requested offset, exactly one `missing results` warning is emitted iff
the page's `results` field is absent, exactly one `results mismatch` warning
iff `results` is present and disagrees with the number of items actually
parsed, exactly one `missing all` warning iff the `all_` total is absent, and
(on a run that does not raise) exactly one `all varied` warning iff the
reported `all_` value varied across pages.  The requests issued, the raise
decision and the returned items depend only on the pages' items, never on
the reported counters — and the actual parsed items are always returned.  A
disagreement between the reported `all_` total and the actual item count
produces, by itself, no warning (see the counterexample); the per-page count
check is against the `results` field, as in the concrete example: one
mismatching page yields exactly the one warning while its actual items are
returned. -/
theorem pagination_warnings_amended {α : Type} (server : Nat → Page α)
    (list_href : String) (page_size max_pages : Nat) (hl : 0 < page_size) :
    (∀ o ∈ (paginate_list_object_items server list_href page_size max_pages).offsets,
        (paginate_list_object_items server list_href page_size max_pages).warnings.count
            (PagWarning.missingResults o) =
          if (server o).results = none then 1 else 0)
    ∧ (∀ o ∈ (paginate_list_object_items server list_href page_size max_pages).offsets,
        ∀ rep : Int,
        (paginate_list_object_items server list_href page_size max_pages).warnings.count
            (PagWarning.resultsMismatch o rep (server o).items.length) =
          if (server o).results = some rep ∧ rep ≠ ((server o).items.length : Int)
          then 1 else 0)
    ∧ (∀ o ∈ (paginate_list_object_items server list_href page_size max_pages).offsets,
        (paginate_list_object_items server list_href page_size max_pages).warnings.count
            (PagWarning.missingAll o) =
          if (server o).all_ = none then 1 else 0)
    ∧ ((paginate_list_object_items server list_href page_size max_pages).raised = false →
        (paginate_list_object_items server list_href page_size max_pages).warnings.count
            PagWarning.allVaried =
          if 1 < (((paginate_list_object_items server list_href page_size
              max_pages).offsets.map (fun o => allEntry (server o).all_)).flatten).dedup.length
          then 1 else 0)
    ∧ (∀ server2 : Nat → Page α, (∀ o, (server o).items = (server2 o).items) →
        (paginate_list_object_items server list_href page_size max_pages).raised
            = (paginate_list_object_items server2 list_href page_size max_pages).raised
        ∧ (paginate_list_object_items server list_href page_size max_pages).offsets
            = (paginate_list_object_items server2 list_href page_size max_pages).offsets
        ∧ (paginate_list_object_items server list_href page_size max_pages).items
            = (paginate_list_object_items server2 list_href page_size max_pages).items)
    ∧ (paginate_list_object_items server list_href page_size max_pages).items =
        ((paginate_list_object_items server list_href page_size max_pages).offsets.map
          (fun o => (server o).items)).flatten
    ∧ (paginate_list_object_items mismatchServer "/edev" 2 20).warnings
        = [PagWarning.resultsMismatch 0 3 1]
    ∧ (paginate_list_object_items mismatchServer "/edev" 2 20).items = [7] := by
  refine ⟨?_, ?_, ?_, ?_, ?_, ?_, by decide, by decide⟩
  · intro o ho
    by_cases hres : (server o).results = none
    · rw [if_pos hres]
      rw [paginate_count_tagged server list_href page_size max_pages hl
        (PagWarning.missingResults o) o ho ?_ (by simp)]
      · exact count_missingResults_one o (server o) hres
      · intro o2 hne hmem
        rcases mem_pageWarnings hmem with ⟨heq, _⟩ | ⟨r, heq, _, _⟩ | ⟨heq, _⟩
        · have h : o = o2 := by injection heq
          exact hne h.symm
        · exact PagWarning.noConfusion heq
        · exact PagWarning.noConfusion heq
    · rw [if_neg hres]
      refine paginate_count_absent server list_href page_size max_pages
        (PagWarning.missingResults o) ?_ (by simp)
      intro o2 hmem
      rcases mem_pageWarnings hmem with ⟨heq, hres2⟩ | ⟨r, heq, _, _⟩ | ⟨heq, _⟩
      · have h : o = o2 := by injection heq
        subst h
        exact hres hres2
      · exact PagWarning.noConfusion heq
      · exact PagWarning.noConfusion heq
  · intro o ho rep
    by_cases hcond : (server o).results = some rep ∧ rep ≠ ((server o).items.length : Int)
    · rw [if_pos hcond]
      rw [paginate_count_tagged server list_href page_size max_pages hl
        (PagWarning.resultsMismatch o rep (server o).items.length) o ho ?_ (by simp)]
      · exact count_resultsMismatch_one o rep (server o) hcond.1 hcond.2
      · intro o2 hne hmem
        rcases mem_pageWarnings hmem with ⟨heq, _⟩ | ⟨r, heq, _, _⟩ | ⟨heq, _⟩
        · exact PagWarning.noConfusion heq
        · have h1 : o = o2 := by injection heq
          exact hne h1.symm
        · exact PagWarning.noConfusion heq
    · rw [if_neg hcond]
      refine paginate_count_absent server list_href page_size max_pages
        (PagWarning.resultsMismatch o rep (server o).items.length) ?_ (by simp)
      intro o2 hmem
      rcases mem_pageWarnings hmem with ⟨heq, _⟩ | ⟨r, heq, hres2, hner⟩ | ⟨heq, _⟩
      · exact PagWarning.noConfusion heq
      · obtain ⟨h1, h2, h3⟩ : o = o2 ∧ rep = r
            ∧ (server o).items.length = (server o2).items.length := by
          injection heq with h1 h2 h3
          exact ⟨h1, h2, h3⟩
        subst h1
        subst h2
        exact hcond ⟨hres2, by rw [← h3] at hner; exact hner⟩
      · exact PagWarning.noConfusion heq
  · intro o ho
    by_cases hall : (server o).all_ = none
    · rw [if_pos hall]
      rw [paginate_count_tagged server list_href page_size max_pages hl
        (PagWarning.missingAll o) o ho ?_ (by simp)]
      · exact count_missingAll_one o (server o) hall
      · intro o2 hne hmem
        rcases mem_pageWarnings hmem with ⟨heq, _⟩ | ⟨r, heq, _, _⟩ | ⟨heq, _⟩
        · exact PagWarning.noConfusion heq
        · exact PagWarning.noConfusion heq
        · have h : o = o2 := by injection heq
          exact hne h.symm
    · rw [if_neg hall]
      refine paginate_count_absent server list_href page_size max_pages
        (PagWarning.missingAll o) ?_ (by simp)
      intro o2 hmem
      rcases mem_pageWarnings hmem with ⟨heq, _⟩ | ⟨r, heq, _, _⟩ | ⟨heq, hall2⟩
      · exact PagWarning.noConfusion heq
      · exact PagWarning.noConfusion heq
      · have h : o = o2 := by injection heq
        subst h
        exact hall hall2
  · intro hr
    rw [paginate_eq_pagCore] at hr ⊢
    rw [pagCore_warnings_ok server list_href page_size max_pages 0 [] hr,
      List.count_append]
    have h1 : (((pagCore server list_href page_size max_pages 0 []).offsets.map
        (fun o2 => pageWarnings o2 (server o2))).flatten).count PagWarning.allVaried
          = 0 := by
      rw [List.count_eq_zero]
      intro hmem
      rw [List.mem_flatten] at hmem
      obtain ⟨l, hlmem, hwl⟩ := hmem
      rw [List.mem_map] at hlmem
      obtain ⟨o2, _, rfl⟩ := hlmem
      rcases mem_pageWarnings hwl with ⟨heq, _⟩ | ⟨r, heq, _, _⟩ | ⟨heq, _⟩
      · exact PagWarning.noConfusion heq
      · exact PagWarning.noConfusion heq
      · exact PagWarning.noConfusion heq
    rw [h1]
    unfold finalAllWarning
    simp only [List.nil_append]
    split
    · simp
    · simp
  · intro server2 hsame
    rw [paginate_eq_pagCore server list_href page_size max_pages,
      paginate_eq_pagCore server2 list_href page_size max_pages]
    obtain ⟨h1, h2⟩ := pagCore_shape_agnostic server list_href page_size server2 hsame
      max_pages 0 [] []
    refine ⟨h1, h2, ?_⟩
    rw [pagCore_items server list_href page_size max_pages 0 [],
      pagCore_items server2 list_href page_size max_pages 0 [], h2]
    refine congrArg List.flatten (List.map_congr_left ?_)
    intro o _
    exact hsame o
  · rw [paginate_eq_pagCore]
    exact pagCore_items server list_href page_size max_pages 0 []

/-- Witness for the amended C5 at the mismatching server: the offending page
at offset 0 receives exactly one `results mismatch` warning. -/
theorem pagination_warnings_amended_witness :
    (paginate_list_object_items mismatchServer "/edev" 2 20).warnings.count
        (PagWarning.resultsMismatch 0 3 (mismatchServer 0).items.length) = 1 := by
  have h := (pagination_warnings_amended mismatchServer "/edev" 2 20 (by decide)).2.1 0
    (by decide) 3
  rw [h]
  decide

section ResourceStoreLemmas

variable {ρ : Type}

lemma applyOp_get_type (rs : ResourceStore ρ) (op : StoreOp ρ)
    (h : ∀ k, ∀ sr ∈ rs.get k, StoredResource.type sr = k) :
    ∀ k, ∀ sr ∈ (applyOp rs op).get k, StoredResource.type sr = k := by
  intro k sr hmem
  cases op with
  | set now t p r =>
    simp only [applyOp, ResourceStore.set_resource, ResourceStore.get] at hmem
    by_cases hk : k = t
    · rw [if_pos hk] at hmem
      rw [List.mem_singleton.1 hmem, StoredResource.type, hk]
    · rw [if_neg hk] at hmem
      exact h k sr hmem
  | append now t p r =>
    simp only [applyOp, ResourceStore.append_resource, ResourceStore.get] at hmem
    by_cases hk : k = t
    · rw [if_pos hk] at hmem
      rcases List.mem_append.1 hmem with hmem | hmem
      · rw [hk]
        exact h t sr hmem
      · rw [List.mem_singleton.1 hmem, StoredResource.type, hk]
    · rw [if_neg hk] at hmem
      exact h k sr hmem
  | clearResource t =>
    simp only [applyOp, ResourceStore.clear_resource, ResourceStore.get] at hmem
    by_cases hk : k = t
    · rw [if_pos hk] at hmem
      cases hmem
    · rw [if_neg hk] at hmem
      exact h k sr hmem
  | clear =>
    simp only [applyOp, ResourceStore.clear, ResourceStore.get] at hmem
    cases hmem

lemma applyOps_get_type :
    ∀ (ops : List (StoreOp ρ)) (rs : ResourceStore ρ),
      (∀ k, ∀ sr ∈ rs.get k, StoredResource.type sr = k) →
      ∀ k, ∀ sr ∈ (applyOps rs ops).get k, StoredResource.type sr = k := by
  intro ops
  induction ops with
  | nil => intro rs h; exact h
  | cons op ops ih =>
    intro rs h
    exact ih (applyOp rs op) (applyOp_get_type rs op h)

lemma applyOps_untouched (k : CSIPAusResource) :
    ∀ (ops : List (StoreOp ρ)) (rs : ResourceStore ρ),
      (∀ op ∈ ops, StoreOp.storesKind op k = false) →
      (applyOps rs ops).get k = rs.get k ∨ (applyOps rs ops).get k = [] := by
  intro ops
  induction ops with
  | nil => intro rs _; exact Or.inl rfl
  | cons op ops ih =>
    intro rs hops
    have hop := hops op (List.mem_cons_self op ops)
    have hrest := fun op2 h2 => hops op2 (List.mem_cons_of_mem op h2)
    have hstep : (applyOp rs op).get k = rs.get k ∨ (applyOp rs op).get k = [] := by
      cases op with
      | set now t p r =>
        simp only [StoreOp.storesKind, decide_eq_false_iff_not] at hop
        left
        simp only [applyOp, ResourceStore.set_resource, ResourceStore.get]
        rw [if_neg (fun hk => hop (hk.symm))]
      | append now t p r =>
        simp only [StoreOp.storesKind, decide_eq_false_iff_not] at hop
        left
        simp only [applyOp, ResourceStore.append_resource, ResourceStore.get]
        rw [if_neg (fun hk => hop (hk.symm))]
      | clearResource t =>
        by_cases hk : k = t
        · right
          simp only [applyOp, ResourceStore.clear_resource, ResourceStore.get]
          rw [if_pos hk]
        · left
          simp only [applyOp, ResourceStore.clear_resource, ResourceStore.get]
          rw [if_neg hk]
      | clear => exact Or.inr rfl
    have hrec := ih (applyOp rs op) hrest
    have : applyOps rs (op :: ops) = applyOps (applyOp rs op) ops := rfl
    rw [this]
    rcases hrec with hrec | hrec
    · rcases hstep with hstep | hstep
      · exact Or.inl (hrec.trans hstep)
      · exact Or.inr (hrec.trans hstep)
    · exact Or.inr hrec

end ResourceStoreLemmas

/-- **C9.** After any sequence of store operations on a fresh store, every
resource returned by `get k` has kind `k`; `set_resource` leaves the bucket
holding exactly the one new entry; `append_resource` leaves the previous
entries in order followed by the new entry; and `get` on a kind never stored
returns the empty list (never an error — `get` is total). -/
theorem resource_store_invariants (ρ : Type) :
    (∀ (ops : List (StoreOp ρ)) (k : CSIPAusResource),
        ∀ sr ∈ (applyOps (ResourceStore.empty ρ) ops).get k, StoredResource.type sr = k)
    ∧ (∀ (rs : ResourceStore ρ) (now : Int) (k : CSIPAusResource)
          (p : Option (StoredResource ρ)) (r : ρ),
        (rs.set_resource now k p r).2.get k = [StoredResource.mk now k p r]
        ∧ (rs.set_resource now k p r).1 = StoredResource.mk now k p r)
    ∧ (∀ (rs : ResourceStore ρ) (now : Int) (k : CSIPAusResource)
          (p : Option (StoredResource ρ)) (r : ρ),
        (rs.append_resource now k p r).2.get k
            = rs.get k ++ [StoredResource.mk now k p r]
        ∧ (rs.append_resource now k p r).1 = StoredResource.mk now k p r)
    ∧ (∀ k : CSIPAusResource, (ResourceStore.empty ρ).get k = [])
    ∧ (∀ (ops : List (StoreOp ρ)) (k : CSIPAusResource),
        (∀ op ∈ ops, StoreOp.storesKind op k = false) →
        (applyOps (ResourceStore.empty ρ) ops).get k = []) := by
  refine ⟨?_, ?_, ?_, fun k => rfl, ?_⟩
  · intro ops k
    exact applyOps_get_type ops (ResourceStore.empty ρ) (fun k sr h => by cases h) k
  · intro rs now k p r
    constructor
    · simp [ResourceStore.set_resource, ResourceStore.get]
    · rfl
  · intro rs now k p r
    constructor
    · simp [ResourceStore.append_resource, ResourceStore.get]
    · rfl
  · intro ops k hops
    rcases applyOps_untouched k ops (ResourceStore.empty ρ) hops with h | h
    · exact h
    · exact h

/-- Witness for C9: an appended resource carries its kind, and a kind never
stored reads back empty. -/
theorem resource_store_invariants_witness :
    StoredResource.type (StoredResource.mk 5 CSIPAusResource.DER none (0 : Int))
        = CSIPAusResource.DER
    ∧ (applyOps (ResourceStore.empty Int) [StoreOp.clear]).get CSIPAusResource.DERSettings
        = [] := by
  constructor
  · refine (resource_store_invariants Int).1
      [StoreOp.append 5 CSIPAusResource.DER none 0] CSIPAusResource.DER
      (StoredResource.mk 5 CSIPAusResource.DER none 0) ?_
    simp [applyOps, applyOp, ResourceStore.append_resource, ResourceStore.get,
      ResourceStore.empty]
  · refine (resource_store_invariants Int).2.2.2.2 [StoreOp.clear]
      CSIPAusResource.DERSettings ?_
    intro op hop
    rw [List.mem_singleton.1 hop]
    rfl

/-- **C8.** For every instant and every store, the polling-window delay
computed by the code equals the specification's formula: `pollRate -
(nowEpochSeconds mod pollRate)` where `pollRate` is the first stored
DeviceCapability's `pollRate` when present, non-null and non-zero, and 60
otherwise; e.g. 10 seconds at epoch second 50 with no DeviceCapability
stored. -/
theorem calculate_wait_next_polling_window_spec (now : Int)
    (discovered_resources : ResourceStore DeviceCapabilityResponse) :
    calculate_wait_next_polling_window now discovered_resources =
      spec_polling_wait now discovered_resources
    ∧ calculate_wait_next_polling_window 50 (ResourceStore.empty DeviceCapabilityResponse)
        = 10 := by
  refine ⟨?_, by decide⟩
  simp only [calculate_wait_next_polling_window, spec_polling_wait]
  cases hd : discovered_resources.get CSIPAusResource.DeviceCapability with
  | nil => simp
  | cons d rest =>
    cases hp : d.resource.pollRate with
    | none => simp [hp]
    | some p =>
      cases p with
      | zero => simp [hp]
      | succ n => simp [hp]

section UpsertLemmas

open RStore

lemma getElem?_some_lt {β : Type} {l : List β} {i : Nat} {a : β} (h : l[i]? = some a) :
    i < l.length := by
  by_contra hge
  rw [List.getElem?_eq_none_iff.mpr (by omega)] at h
  exact Option.noConfusion h

lemma upsertBucket_none_iff (cid : StoredResourceId) (sr : RStore.StoredResource) :
    ∀ bucket : List RStore.StoredResource,
      upsertBucket cid sr bucket = none ↔ ∀ e ∈ bucket, e.id ≠ cid := by
  intro bucket
  induction bucket with
  | nil => simp [upsertBucket]
  | cons e rest ih =>
    rw [upsertBucket]
    by_cases he : e.id = cid
    · rw [if_pos he]
      simp only [List.mem_cons]
      constructor
      · intro h; exact absurd h (by simp)
      · intro h; exact absurd he (h e (Or.inl rfl))
    · rw [if_neg he]
      cases hrec : upsertBucket cid sr rest with
      | some rest2 =>
        simp only
        constructor
        · intro h; exact absurd h (by simp)
        · intro h
          have := ih.2 fun e2 h2 => h e2 (List.mem_cons_of_mem e h2)
          rw [hrec] at this
          exact absurd this (by simp)
      | none =>
        simp only [true_iff]
        intro e2 h2
        rcases List.mem_cons.1 h2 with rfl | h2
        · exact he
        · exact (ih.1 hrec) e2 h2

lemma upsertBucket_some (cid : StoredResourceId) (sr : RStore.StoredResource) :
    ∀ (bucket b2 : List RStore.StoredResource),
      upsertBucket cid sr bucket = some b2 →
        ∃ i e, bucket[i]? = some e ∧ e.id = cid
          ∧ (∀ j < i, ∀ e2, bucket[j]? = some e2 → e2.id ≠ cid)
          ∧ b2 = bucket.set i sr := by
  intro bucket
  induction bucket with
  | nil => intro b2 h; exact absurd h (by simp [upsertBucket])
  | cons e rest ih =>
    intro b2 h
    rw [upsertBucket] at h
    by_cases he : e.id = cid
    · rw [if_pos he] at h
      refine ⟨0, e, by simp, he, by omega, ?_⟩
      simp only [List.set]
      exact (Option.some.inj h).symm
    · rw [if_neg he] at h
      cases hrec : upsertBucket cid sr rest with
      | none => rw [hrec] at h; exact absurd h (by simp)
      | some rest2 =>
        rw [hrec] at h
        obtain ⟨i, e1, hget, hid, hbefore, hset⟩ := ih rest2 hrec
        refine ⟨i + 1, e1, by simpa using hget, hid, ?_, ?_⟩
        · intro j hj e2 hj2
          match j with
          | 0 =>
            have h0 : e = e2 := by simpa using hj2
            rw [← h0]
            exact he
          | j2 + 1 =>
            exact hbefore j2 (by omega) e2 (by simpa using hj2)
        · have : b2 = e :: rest2 := (Option.some.inj h).symm
          rw [this, hset]
          rfl

lemma upsertBucket_found (cid : StoredResourceId) (sr : RStore.StoredResource) :
    ∀ (bucket : List RStore.StoredResource) (i : Nat) (e : RStore.StoredResource),
      bucket[i]? = some e → e.id = cid →
      (∀ j < i, ∀ e2, bucket[j]? = some e2 → e2.id ≠ cid) →
      upsertBucket cid sr bucket = some (bucket.set i sr) := by
  intro bucket
  induction bucket with
  | nil => intro i e h; exact absurd h (by simp)
  | cons b rest ih =>
    intro i e hget hid hbefore
    match i with
    | 0 =>
      have : b = e := by simpa using hget
      subst this
      rw [upsertBucket, if_pos hid]
      rfl
    | i2 + 1 =>
      have hb : b.id ≠ cid := hbefore 0 (by omega) b (by simp)
      rw [upsertBucket, if_neg hb]
      rw [ih i2 e (by simpa using hget) hid ?_]
      · rfl
      · intro j hj e2 hj2
        exact hbefore (j + 1) (by omega) e2 (by simpa using hj2)

lemma upsert_creates_first (store : RStore.ResourceStore) (k : CSIPAusResource)
    (parent : Option StoredResourceId) (payload : Payload) (h : String)
    (hp : payload.href = some h) :
    (RStore.upsert_resource store k parent payload).1 =
        (⟨mkId parent (RKey.href h), k, parent, payload⟩ : RStore.StoredResource)
    ∧ ∃ i : Nat, ((RStore.upsert_resource store k parent payload).2.buckets k)[i]? =
          some (⟨mkId parent (RKey.href h), k, parent, payload⟩ : RStore.StoredResource)
      ∧ (∀ j : Nat, j < i → ∀ e2 : RStore.StoredResource,
          ((RStore.upsert_resource store k parent payload).2.buckets k)[j]? = some e2 →
            e2.id ≠ mkId parent (RKey.href h))
      ∧ (∀ j : Nat, j ≠ i →
          ((RStore.upsert_resource store k parent payload).2.buckets k)[j]?
            = (store.buckets k)[j]?) := by
  have hcid : computeId store parent payload = (mkId parent (RKey.href h), store) := by
    rw [computeId, hp]
  cases hub : upsertBucket (mkId parent (RKey.href h))
      ⟨mkId parent (RKey.href h), k, parent, payload⟩ (store.buckets k) with
  | some b2 =>
    have hfst : (RStore.upsert_resource store k parent payload).1 =
        (⟨mkId parent (RKey.href h), k, parent, payload⟩ : RStore.StoredResource) := by
      rw [RStore.upsert_resource, hcid]
      simp [hub]
    have hb : (RStore.upsert_resource store k parent payload).2.buckets k = b2 := by
      rw [RStore.upsert_resource, hcid]
      simp [hub]
    obtain ⟨i, e, hget, hid, hbefore, hset⟩ := upsertBucket_some _ _ _ _ hub
    refine ⟨hfst, i, ?_, ?_, ?_⟩
    · rw [hb, hset]
      exact List.getElem?_set_self (getElem?_some_lt hget)
    · intro j hj e2 hj2
      rw [hb, hset, List.getElem?_set_ne (by omega)] at hj2
      exact hbefore j hj e2 hj2
    · intro j hj
      rw [hb, hset, List.getElem?_set_ne (fun hji => hj hji.symm)]
  | none =>
    have hfst : (RStore.upsert_resource store k parent payload).1 =
        (⟨mkId parent (RKey.href h), k, parent, payload⟩ : RStore.StoredResource) := by
      rw [RStore.upsert_resource, hcid]
      simp [hub]
    have hb : (RStore.upsert_resource store k parent payload).2.buckets k =
        store.buckets k ++ [⟨mkId parent (RKey.href h), k, parent, payload⟩] := by
      rw [RStore.upsert_resource, hcid]
      simp [hub]
    have hall := (upsertBucket_none_iff _ _ _).1 hub
    refine ⟨hfst, (store.buckets k).length, ?_, ?_, ?_⟩
    · rw [hb]
      exact List.getElem?_concat_length _ _
    · intro j hj e2 hj2
      rw [hb, List.getElem?_append_left hj] at hj2
      exact hall e2 (List.getElem?_mem hj2)
    · intro j hj
      rw [hb]
      rcases Nat.lt_or_ge j (store.buckets k).length with hlt | hge
      · exact List.getElem?_append_left hlt
      · have hgt : (store.buckets k).length < j := by omega
        rw [List.getElem?_eq_none_iff.mpr (by simp; omega),
          List.getElem?_eq_none_iff.mpr (by omega)]

end UpsertLemmas

/-- **C6.** (Spec-modelled: `model/resource.py` is absent from the source
snapshot, so the upsert-capable store is modelled from the specification.)
`upsert_resource(kind, parent, payload)` computes the candidate identity from
the parent and the payload's href; if an entry of the bucket for `kind`
already has that identity, the first such entry is replaced in place — its
position preserved, the bucket length unchanged — and otherwise the new
entry is appended at the end; other kinds' buckets are untouched.
Consequently two upserts whose payloads share the same `(parent, href)` leave
the bucket size unchanged with the second payload's entry visible at the
first insert's position and all other positions unchanged. -/
theorem upsert_resource_idempotence :
    (∀ (store : RStore.ResourceStore) (k : CSIPAusResource)
        (parent : Option RStore.StoredResourceId) (payload : RStore.Payload) (h : String),
      payload.href = some h →
      ((∀ e ∈ store.buckets k, e.id ≠ RStore.mkId parent (RStore.RKey.href h)) →
        (RStore.upsert_resource store k parent payload).2.buckets k
          = store.buckets k
            ++ [(⟨RStore.mkId parent (RStore.RKey.href h), k, parent, payload⟩ :
                  RStore.StoredResource)])
      ∧ ((∃ e ∈ store.buckets k, e.id = RStore.mkId parent (RStore.RKey.href h)) →
          ∃ i : Nat, i < (store.buckets k).length
            ∧ (RStore.upsert_resource store k parent payload).2.buckets k
                = (store.buckets k).set i
                    (⟨RStore.mkId parent (RStore.RKey.href h), k, parent, payload⟩ :
                      RStore.StoredResource)
            ∧ ((RStore.upsert_resource store k parent payload).2.buckets k).length
                = (store.buckets k).length)
      ∧ (∀ k2, k2 ≠ k →
          (RStore.upsert_resource store k parent payload).2.buckets k2
            = store.buckets k2))
    ∧ (∀ (store : RStore.ResourceStore) (k : CSIPAusResource)
        (parent : Option RStore.StoredResourceId) (p1 p2 : RStore.Payload) (h : String),
      p1.href = some h → p2.href = some h →
      (((RStore.upsert_resource ((RStore.upsert_resource store k parent p1).2) k parent
          p2).2.buckets k).length
        = (((RStore.upsert_resource store k parent p1).2).buckets k).length)
      ∧ ∃ i : Nat, (((RStore.upsert_resource store k parent p1).2).buckets k)[i]? =
            some (⟨RStore.mkId parent (RStore.RKey.href h), k, parent, p1⟩ :
              RStore.StoredResource)
        ∧ (((RStore.upsert_resource ((RStore.upsert_resource store k parent p1).2) k parent
              p2).2).buckets k)[i]? =
            some (⟨RStore.mkId parent (RStore.RKey.href h), k, parent, p2⟩ :
              RStore.StoredResource)
        ∧ ∀ j : Nat, j ≠ i →
            (((RStore.upsert_resource ((RStore.upsert_resource store k parent p1).2) k
                parent p2).2).buckets k)[j]?
              = (((RStore.upsert_resource store k parent p1).2).buckets k)[j]?) := by
  constructor
  · intro store k parent payload h hp
    have hcid : RStore.computeId store parent payload
        = (RStore.mkId parent (RStore.RKey.href h), store) := by
      rw [RStore.computeId, hp]
    refine ⟨?_, ?_, ?_⟩
    · intro hnone
      have hub : RStore.upsertBucket (RStore.mkId parent (RStore.RKey.href h))
          ⟨RStore.mkId parent (RStore.RKey.href h), k, parent, payload⟩
          (store.buckets k) = none :=
        (upsertBucket_none_iff _ _ _).2 hnone
      rw [RStore.upsert_resource, hcid]
      simp [hub]
    · intro hex
      cases hub : RStore.upsertBucket (RStore.mkId parent (RStore.RKey.href h))
          ⟨RStore.mkId parent (RStore.RKey.href h), k, parent, payload⟩
          (store.buckets k) with
      | none =>
        obtain ⟨e, hmem, hid⟩ := hex
        exact absurd hid ((upsertBucket_none_iff _ _ _).1 hub e hmem)
      | some b2 =>
        have hb : (RStore.upsert_resource store k parent payload).2.buckets k = b2 := by
          rw [RStore.upsert_resource, hcid]
          simp [hub]
        obtain ⟨i, e, hget, _, _, hset⟩ := upsertBucket_some _ _ _ _ hub
        refine ⟨i, getElem?_some_lt hget, ?_, ?_⟩
        · rw [hb]
          exact hset
        · rw [hb, hset, List.length_set]
    · intro k2 hk2
      rw [RStore.upsert_resource, hcid]
      cases hub : RStore.upsertBucket (RStore.mkId parent (RStore.RKey.href h))
          ⟨RStore.mkId parent (RStore.RKey.href h), k, parent, payload⟩
          (store.buckets k) with
      | some b2 => simp [hub, hk2]
      | none => simp [hub, hk2]
  · intro store k parent p1 p2 h hp1 hp2
    obtain ⟨hsr1, i, hget1, hbefore1, _⟩ :=
      upsert_creates_first store k parent p1 h hp1
    have hub2 : RStore.upsertBucket (RStore.mkId parent (RStore.RKey.href h))
        ⟨RStore.mkId parent (RStore.RKey.href h), k, parent, p2⟩
        (((RStore.upsert_resource store k parent p1).2).buckets k)
        = some ((((RStore.upsert_resource store k parent p1).2).buckets k).set i
            ⟨RStore.mkId parent (RStore.RKey.href h), k, parent, p2⟩) :=
      upsertBucket_found _ _ _ i _ hget1 rfl hbefore1
    have hcid2 : RStore.computeId ((RStore.upsert_resource store k parent p1).2) parent p2
        = (RStore.mkId parent (RStore.RKey.href h),
            (RStore.upsert_resource store k parent p1).2) := by
      rw [RStore.computeId, hp2]
    have hres2 : ((RStore.upsert_resource ((RStore.upsert_resource store k parent p1).2) k
        parent p2).2).buckets k
        = (((RStore.upsert_resource store k parent p1).2).buckets k).set i
            ⟨RStore.mkId parent (RStore.RKey.href h), k, parent, p2⟩ := by
      rw [RStore.upsert_resource, hcid2]
      simp [hub2]
    refine ⟨?_, i, hget1, ?_, ?_⟩
    · rw [hres2, List.length_set]
    · rw [hres2]
      exact List.getElem?_set_self (getElem?_some_lt hget1)
    · intro j hj
      rw [hres2]
      exact List.getElem?_set_ne (fun hji => hj hji.symm)

/-- Witness for C6: two upserts of payloads with href `/edev/1` into a fresh
store leave the bucket size unchanged. -/
theorem upsert_resource_idempotence_witness :
    ((RStore.upsert_resource
        ((RStore.upsert_resource RStore.ResourceStore.empty CSIPAusResource.EndDevice none
          ⟨some "/edev/1", 1⟩).2) CSIPAusResource.EndDevice none
        ⟨some "/edev/1", 2⟩).2.buckets CSIPAusResource.EndDevice).length
      = ((RStore.upsert_resource RStore.ResourceStore.empty CSIPAusResource.EndDevice none
          ⟨some "/edev/1", 1⟩).2.buckets CSIPAusResource.EndDevice).length := by
  exact ((upsert_resource_idempotence).2 RStore.ResourceStore.empty
    CSIPAusResource.EndDevice none ⟨some "/edev/1", 1⟩ ⟨some "/edev/1", 2⟩ "/edev/1"
    rfl rfl).1

section EngineLemmas

variable (act : StepExecution → ActionResult) (chk : StepExecution → CheckResult)
variable (budgetRemains : StepExecution → Bool) (repeat_delay : Int)

lemma engineRun_succ_none (fuel : Nat) (now : Int) (items : List StepExecution)
    (evs : List EngineEvent) (htun : time_until_next now items = none) :
    engineRun act chk budgetRemains repeat_delay (fuel + 1) now items evs
      = (evs, items) := by
  rw [engineRun, htun]

lemma engineRun_succ_popnone (fuel : Nat) (now wait : Int) (items items2 : List StepExecution)
    (evs : List EngineEvent) (htun : time_until_next now items = some wait)
    (hpop : pop (now + wait) items = (none, items2)) :
    engineRun act chk budgetRemains repeat_delay (fuel + 1) now items evs
      = engineRun act chk budgetRemains repeat_delay fuel (now + wait) items2 evs := by
  rw [engineRun, htun]
  simp only [hpop]

lemma engineRun_succ_some (fuel : Nat) (now wait : Int) (se : StepExecution)
    (items items2 : List StepExecution) (evs : List EngineEvent)
    (htun : time_until_next now items = some wait)
    (hpop : pop (now + wait) items = (some se, items2)) :
    engineRun act chk budgetRemains repeat_delay (fuel + 1) now items evs
      = (if (act se).«repeat» then
          engineRun act chk budgetRemains repeat_delay fuel (now + wait)
            (items2 ++ [bumpRepeat se (act se).not_before])
            (evs ++ [EngineEvent.acted se (act se),
              EngineEvent.requeued (bumpRepeat se (act se).not_before)])
        else
          if (chk se).passed then
            engineRun act chk budgetRemains repeat_delay fuel (now + wait) items2
              (evs ++ [EngineEvent.acted se (act se), EngineEvent.checked se (chk se),
                EngineEvent.finalized se true])
          else
            if se.source.repeat_until_pass && budgetRemains se then
              engineRun act chk budgetRemains repeat_delay fuel (now + wait)
                (items2 ++ [bumpAttempt se (some (now + wait + repeat_delay))])
                (evs ++ [EngineEvent.acted se (act se), EngineEvent.checked se (chk se),
                  EngineEvent.requeued
                    (bumpAttempt se (some (now + wait + repeat_delay)))])
            else
              (evs ++ [EngineEvent.acted se (act se), EngineEvent.checked se (chk se),
                EngineEvent.finalized se false], items2)) := by
  rw [engineRun, htun]
  simp only [hpop]

lemma engineRun_events :
    ∀ (fuel : Nat) (now : Int) (items : List StepExecution) (evs : List EngineEvent),
      (∀ se r, EngineEvent.checked se r ∈ evs → (act se).«repeat» = false) →
      (∀ se, EngineEvent.acted se (act se) ∈ evs → (act se).«repeat» = true →
        EngineEvent.requeued (bumpRepeat se (act se).not_before) ∈ evs) →
      (∀ se r, EngineEvent.checked se r ∈
          (engineRun act chk budgetRemains repeat_delay fuel now items evs).1 →
          (act se).«repeat» = false)
      ∧ (∀ se, EngineEvent.acted se (act se) ∈
          (engineRun act chk budgetRemains repeat_delay fuel now items evs).1 →
          (act se).«repeat» = true →
          EngineEvent.requeued (bumpRepeat se (act se).not_before) ∈
            (engineRun act chk budgetRemains repeat_delay fuel now items evs).1) := by
  intro fuel
  induction fuel with
  | zero =>
    intro now items evs h1 h2
    exact ⟨h1, h2⟩
  | succ fuel ih =>
    intro now items evs h1 h2
    cases htun : time_until_next now items with
    | none =>
      rw [engineRun_succ_none act chk budgetRemains repeat_delay fuel now items evs htun]
      exact ⟨h1, h2⟩
    | some wait =>
      rcases hpop : pop (now + wait) items with ⟨o, items2⟩
      cases o with
      | none =>
        rw [engineRun_succ_popnone act chk budgetRemains repeat_delay fuel now wait items
          items2 evs htun hpop]
        exact ih (now + wait) items2 evs h1 h2
      | some se =>
        rw [engineRun_succ_some act chk budgetRemains repeat_delay fuel now wait se items
          items2 evs htun hpop]
        by_cases hrep : (act se).«repeat» = true
        · rw [if_pos hrep]
          refine ih (now + wait) (items2 ++ [bumpRepeat se (act se).not_before])
            (evs ++ [EngineEvent.acted se (act se),
              EngineEvent.requeued (bumpRepeat se (act se).not_before)]) ?_ ?_
          · intro se1 r hmem
            rcases List.mem_append.1 hmem with hmem | hmem
            · exact h1 se1 r hmem
            · simp at hmem
          · intro se1 hmem hrep1
            rcases List.mem_append.1 hmem with hmem | hmem
            · exact List.mem_append_left _ (h2 se1 hmem hrep1)
            · have hse : se1 = se := by
                simp only [List.mem_cons, List.mem_singleton] at hmem
                rcases hmem with hmem | hmem
                · injection hmem
                · exact absurd hmem (by simp)
              subst hse
              refine List.mem_append_right _ ?_
              simp
        · rw [if_neg hrep]
          have hrepf : (act se).«repeat» = false := by
            cases hval : (act se).«repeat»
            · rfl
            · exact absurd hval hrep
          by_cases hpass : (chk se).passed = true
          · rw [if_pos hpass]
            refine ih (now + wait) items2
              (evs ++ [EngineEvent.acted se (act se), EngineEvent.checked se (chk se),
                EngineEvent.finalized se true]) ?_ ?_
            · intro se1 r hmem
              rcases List.mem_append.1 hmem with hmem | hmem
              · exact h1 se1 r hmem
              · simp only [List.mem_cons, List.mem_singleton] at hmem
                rcases hmem with hmem | hmem | hmem
                · exact absurd hmem (by simp)
                · have hse : se1 = se := by injection hmem
                  rw [hse]
                  exact hrepf
                · exact absurd hmem (by simp)
            · intro se1 hmem hrep1
              rcases List.mem_append.1 hmem with hmem | hmem
              · exact List.mem_append_left _ (h2 se1 hmem hrep1)
              · simp only [List.mem_cons, List.mem_singleton] at hmem
                rcases hmem with hmem | hmem | hmem
                · have hse : se1 = se := by injection hmem
                  subst hse
                  rw [hrep1] at hrepf
                  exact absurd hrepf (by simp)
                · exact absurd hmem (by simp)
                · exact absurd hmem (by simp)
          · rw [if_neg hpass]
            by_cases hretry : (se.source.repeat_until_pass && budgetRemains se) = true
            · rw [if_pos hretry]
              refine ih (now + wait)
                (items2 ++ [bumpAttempt se (some (now + wait + repeat_delay))])
                (evs ++ [EngineEvent.acted se (act se), EngineEvent.checked se (chk se),
                  EngineEvent.requeued
                    (bumpAttempt se (some (now + wait + repeat_delay)))]) ?_ ?_
              · intro se1 r hmem
                rcases List.mem_append.1 hmem with hmem | hmem
                · exact h1 se1 r hmem
                · simp only [List.mem_cons, List.mem_singleton] at hmem
                  rcases hmem with hmem | hmem | hmem
                  · exact absurd hmem (by simp)
                  · have hse : se1 = se := by injection hmem
                    rw [hse]
                    exact hrepf
                  · exact absurd hmem (by simp)
              · intro se1 hmem hrep1
                rcases List.mem_append.1 hmem with hmem | hmem
                · exact List.mem_append_left _ (h2 se1 hmem hrep1)
                · simp only [List.mem_cons, List.mem_singleton] at hmem
                  rcases hmem with hmem | hmem | hmem
                  · have hse : se1 = se := by injection hmem
                    subst hse
                    rw [hrep1] at hrepf
                    exact absurd hrepf (by simp)
                  · exact absurd hmem (by simp)
                  · exact absurd hmem (by simp)
            · rw [if_neg hretry]
              constructor
              · intro se1 r hmem
                rcases List.mem_append.1 hmem with hmem | hmem
                · exact h1 se1 r hmem
                · simp only [List.mem_cons, List.mem_singleton] at hmem
                  rcases hmem with hmem | hmem | hmem
                  · exact absurd hmem (by simp)
                  · have hse : se1 = se := by injection hmem
                    rw [hse]
                    exact hrepf
                  · exact absurd hmem (by simp)
              · intro se1 hmem hrep1
                rcases List.mem_append.1 hmem with hmem | hmem
                · exact List.mem_append_left _ (h2 se1 hmem hrep1)
                · simp only [List.mem_cons, List.mem_singleton] at hmem
                  rcases hmem with hmem | hmem | hmem
                  · have hse : se1 = se := by injection hmem
                    subst hse
                    rw [hrep1] at hrepf
                    exact absurd hrepf (by simp)
                  · exact absurd hmem (by simp)
                  · exact absurd hmem (by simp)

end EngineLemmas

/-- **C7.** (Spec-modelled: `execution/execute.py` is absent from the source
snapshot, so the engine loop is modelled from §4.5 of the specification.)  In
the engine's per-step loop, whenever the action collaborator signals a retry
request (`repeat = true`) for a popped step, the step is re-added to the
scheduler with `not_before` set to the returned delay (or immediate) and its
repeat/attempt counters incremented, and the check collaborator is never
invoked for that attempt: the run's event trace contains a matching
re-queue event for every such action invocation and no check event at all
for a step value whose action requests a retry. -/
theorem engine_repeat_skips_checks (act : StepExecution → ActionResult)
    (chk : StepExecution → CheckResult) (budgetRemains : StepExecution → Bool)
    (repeat_delay : Int) (fuel : Nat) (now : Int) (items : List StepExecution) :
    (∀ se r, EngineEvent.checked se r ∈
        (engineRun act chk budgetRemains repeat_delay fuel now items []).1 →
        (act se).«repeat» = false)
    ∧ (∀ se, EngineEvent.acted se (act se) ∈
        (engineRun act chk budgetRemains repeat_delay fuel now items []).1 →
        (act se).«repeat» = true →
        EngineEvent.requeued (bumpRepeat se (act se).not_before) ∈
          (engineRun act chk budgetRemains repeat_delay fuel now items []).1)
    ∧ (∀ se, (act se).«repeat» = true → ∀ r, EngineEvent.checked se r ∉
        (engineRun act chk budgetRemains repeat_delay fuel now items []).1) := by
  obtain ⟨h1, h2⟩ := engineRun_events act chk budgetRemains repeat_delay fuel now items []
    (by intro se r h; cases h) (by intro se h; cases h)
  refine ⟨h1, h2, ?_⟩
  intro se hrep r hmem
  have h0 := h1 se r hmem
  rw [hrep] at h0
  exact Bool.noConfusion h0

/-- Witness for C7: with a concrete action collaborator that requests one
repeat on the first attempt, the engine run re-queues the bumped step and
never checks the repeat-requesting attempt. -/
theorem engine_repeat_skips_checks_witness :
    EngineEvent.requeued (bumpRepeat readyStep (witnessAct readyStep).not_before)
        ∈ (engineRun witnessAct witnessChk witnessBudget 0 5 0 [readyStep] []).1
    ∧ ∀ r, EngineEvent.checked readyStep r
        ∉ (engineRun witnessAct witnessChk witnessBudget 0 5 0 [readyStep] []).1 := by
  have h := engine_repeat_skips_checks witnessAct witnessChk witnessBudget 0 5 0 [readyStep]
  exact ⟨h.2.1 readyStep (by decide) (by decide), h.2.2 readyStep (by decide)⟩

end CactusClient
